import Mathlib

/-!
# Verification of the `dynamic_graph` arena / branded-pointer / sweep subsystem

Shallow embedding of the Rust sources:

* `src/nodes.rs`    — `CleanupGen`, `MetaData`, node kinds and their edge collections.
  All four stock node kinds (`VecNode`, `NamedNode`, `OptionNode`, `TreeNode`)
  store a payload, an edge collection whose entries are `(target pointer, edge value)`
  pairs, and the `MetaData` bookkeeping; their `traverse` feeds every outgoing
  target pointer to the cleanup state in iteration order.  The embedding models a
  node generically as a payload, a list of `(target address, edge value)` pairs and
  the two metadata fields, with the stable heap address of the node's `SharedBox`
  allocation made explicit as `addr`.
* `src/graph_raw.rs` — `GraphRaw` (`data : Vec<SharedBox<T>>` becomes a list of
  nodes carrying their own stable addresses), `spawn_detached`, `touch`, `kill`,
  `CleanupState`, `cleanup_precise`, `bridge`.
* `src/edge.rs`     — `Edge`, `EdgeBoth`, `EdgeSingle` and the `OptionEdge` helpers.
* `src/dynamic_graph.rs` — the older generation-tag checked API (`GraphRef`,
  `AnchorMut`, `CursorMut`, `Cursor`) whose operations panic on a foreign pointer.

Machine pointers are modelled as natural-number addresses; dereferencing a raw
pointer becomes an address lookup, which is exact because two live `SharedBox`
allocations never share an address.  Fallible situations the Rust code treats as
undefined behaviour (`assume`, unchecked derefs) are modelled by `Option`
fallbacks and appear as hypotheses of the theorems.
-/

set_option maxHeartbeats 1000000

/-- Model of `CleanupGen` from `src/nodes.rs` (the two-valued sweep parity). -/
inductive CleanupGen where
  | Even : CleanupGen
  | Odd : CleanupGen
deriving DecidableEq

/-- Model of `CleanupGen::flip` from `src/nodes.rs`. -/
def CleanupGen.flip : CleanupGen → CleanupGen
  | .Even => .Odd
  | .Odd => .Even

/-- A graph node as stored in the arena: the stable heap address of its
`SharedBox` allocation, the payload, the edge collection (list of
`(target address, edge value)` entries in iteration order, modelling the four
stock collection variants), and the two `MetaData` fields. -/
structure Node (N E : Type) where
  addr : Nat
  payload : N
  edges : List (Nat × E)
  cleanup_gen : CleanupGen
  store_index : Nat
deriving DecidableEq

/-- Model of `GraphRaw` from `src/graph_raw.rs`: the vector of owned boxes
(each element carries its stable address) and the current sweep parity. -/
structure GraphRaw (N E : Type) where
  data : List (Node N E)
  cleanup_gen : CleanupGen
deriving DecidableEq

/-- Dereference a node address: find the (unique, in any real heap) arena node
with that stable address. -/
def findNode {N E : Type} (l : List (Node N E)) (a : Nat) : Option (Node N E) :=
  l.find? (fun n => n.addr == a)

/-- Write through a node address: update the (first) node carrying address `a`.
On a real heap addresses are unique, so this is exact pointer write. -/
def updateNode {N E : Type} (l : List (Node N E)) (a : Nat) (f : Node N E → Node N E) :
    List (Node N E) :=
  match l with
  | [] => []
  | n :: rest => if n.addr = a then f n :: rest else n :: updateNode rest a f

/-- Update the element at position `i` (identity when out of bounds). -/
def updateAt {α : Type} (l : List α) (i : Nat) (f : α → α) : List α :=
  match l[i]? with
  | some x => l.set i (f x)
  | none => l

/-- Model of `Vec::swap` (identity when an index is out of bounds; the Rust
call would panic there, which no verified path reaches). -/
def swapList {α : Type} (l : List α) (i j : Nat) : List α :=
  match l[i]?, l[j]? with
  | some x, some y => (l.set i y).set j x
  | _, _ => l

/-- Model of `Vec::swap_remove` at index `i`: overwrite position `i` with the
last element and drop the last position. -/
def swapRemove {α : Type} (l : List α) (i : Nat) : List α :=
  match l.getLast? with
  | none => l
  | some x => if i < l.length then (l.set i x).dropLast else l

/-- Model of `GraphRaw::spawn_detached` from `src/graph_raw.rs`: box a fresh node
(`from_data` gives it an empty edge collection), set its `store_index` to the
pre-push length and its `cleanup_gen` to the arena's current parity, push it, and
return its stable address.  The fresh heap address chosen by the allocator is the
explicit argument `addr`. -/
def spawn_detached {N E : Type} (g : GraphRaw N E) (addr : Nat) (data : N) :
    GraphRaw N E × Nat :=
  let node : Node N E :=
    { addr := addr, payload := data, edges := [],
      cleanup_gen := g.cleanup_gen, store_index := g.data.length }
  ({ g with data := g.data ++ [node] }, addr)

/-- Model of `GraphRaw::touch` from `src/graph_raw.rs`.  Dereferences `item`; if
its parity already equals the arena's, returns `false` without changing
anything.  Otherwise it sets the node's parity to the current one, records the
node's old `store_index`, points its `store_index` at `frontier`, rewrites the
`store_index` of the node currently boxed at position `frontier` to the old
index, and swaps the two vector positions.  Dereferencing an address absent from
the arena is undefined behaviour in the source (`item` is required valid); the
model returns `false` unchanged there. -/
def GraphRaw.touch {N E : Type} (g : GraphRaw N E) (frontier : Nat) (item : Nat) :
    Bool × GraphRaw N E :=
  match findNode g.data item with
  | none => (false, g)
  | some s =>
    if s.cleanup_gen ≠ g.cleanup_gen then
      let item_index := s.store_index
      let data1 := updateNode g.data item
        (fun n => { n with cleanup_gen := g.cleanup_gen, store_index := frontier })
      let data2 := updateAt data1 frontier (fun n => { n with store_index := item_index })
      (true, { g with data := swapList data2 item_index frontier })
    else
      (false, g)

/-- Model of `GraphRaw::kill` from `src/graph_raw.rs`: read the victim's
`store_index`, rewrite the last element's `store_index` to it, then
`swap_remove` the victim's position.  The source's preconditions (`item` valid,
vector non-empty, `item_index` in bounds) are `assume`d there; the model falls
back to the unchanged graph when they fail. -/
def GraphRaw.kill {N E : Type} (g : GraphRaw N E) (item : Nat) : GraphRaw N E :=
  match findNode g.data item with
  | none => g
  | some victim =>
    match g.data.getLast? with
    | none => g
    | some _ =>
      let item_index := victim.store_index
      let data1 := updateAt g.data (g.data.length - 1)
        (fun n => { n with store_index := item_index })
      { g with data := swapRemove data1 item_index }

/-- Model of `CleanupState` from `src/graph_raw.rs`: the graph being swept, the
FIFO queue of pending marked nodes and the compaction frontier `index`. -/
structure CleanupState (N E : Type) where
  parent : GraphRaw N E
  queue : List Nat
  index : Nat
deriving DecidableEq

/-- Model of `CleanupState::touch`: run `GraphRaw::touch` at the current
frontier; on success advance the frontier and enqueue the node. -/
def CleanupState.touch {N E : Type} (st : CleanupState N E) (node : Nat) :
    CleanupState N E :=
  let r := st.parent.touch st.index node
  if r.1 then
    { parent := r.2, queue := st.queue ++ [node], index := st.index + 1 }
  else
    { st with parent := r.2 }

/-- `NodeCollection::traverse` for every stock collection feeds each outgoing
target pointer to `CleanupState::touch` in iteration order. -/
def traverseNode {N E : Type} (st : CleanupState N E) (n : Node N E) : CleanupState N E :=
  n.edges.foldl (fun s e => s.touch e.1) st

/-- The `while let Some(q) = state.queue.pop_front()` loop of
`GraphRaw::cleanup_precise`, with explicit fuel: pop the front of the queue,
dereference it and touch every outgoing target.  `cleanup_precise` supplies
enough fuel for the loop to drain the queue (proved below). -/
def sweepLoop {N E : Type} : Nat → CleanupState N E → CleanupState N E
  | 0, st => st
  | fuel + 1, st =>
    match st.queue with
    | [] => st
    | q :: rest =>
      let st1 : CleanupState N E := { st with queue := rest }
      let st2 :=
        match findNode st1.parent.data q with
        | some n => traverseNode st1 n
        | none => st1
      sweepLoop fuel st2

/-- Model of `GraphRaw::cleanup_precise` from `src/graph_raw.rs`: flip the
parity, seed the queue by touching every root pointer (`RootCollection::traverse`
touches the roots in iteration order), drain the queue, then truncate the arena
to `[0, index)`. -/
def cleanup_precise {N E : Type} (g : GraphRaw N E) (root : List Nat) : GraphRaw N E :=
  let g1 : GraphRaw N E := { g with cleanup_gen := g.cleanup_gen.flip }
  let st0 : CleanupState N E := { parent := g1, queue := [], index := 0 }
  let st1 := root.foldl CleanupState.touch st0
  let stf := sweepLoop (2 * st1.parent.data.length + st1.queue.length) st1
  { stf.parent with data := stf.parent.data.take stf.index }

/-- Model of `GraphRaw::bridge` from `src/graph_raw.rs` (all four node kinds
share the same body): when the two pointers differ (comparison is by node
address, per `GraphPtr`'s `PartialEq`), dereference both and hand back the two
views; otherwise `None`.  The inner `Option`s model the unchecked dereferences
of the two addresses. -/
def GraphRaw.bridge {N E : Type} (g : GraphRaw N E) (src dst : Nat) :
    Option (Option (Node N E) × Option (Node N E)) :=
  if src ≠ dst then
    some (findNode g.data src, findNode g.data dst)
  else
    none

/-! ## Model of `src/edge.rs` -/

/-- Model of `EdgeBoth`: values from the source node, the destination node and
the edge. -/
structure EdgeBoth (N E : Type) where
  this : N
  that : N
  edge : E
deriving DecidableEq

/-- Model of `EdgeSingle`: a value from one node and the edge. -/
structure EdgeSingle (N E : Type) where
  this : N
  edge : E
deriving DecidableEq

/-- Model of the `Edge` enum: `Both` when the edge connects two different
nodes, `Loop` when it loops back to the source node. -/
inductive Edge (N E : Type) where
  | Both : EdgeBoth N E → Edge N E
  | Loop : EdgeSingle N E → Edge N E
deriving DecidableEq

/-- Model of `Edge::this`. -/
def Edge.this {N E : Type} : Edge N E → EdgeSingle N E
  | .Both s => { this := s.this, edge := s.edge }
  | .Loop s => s

/-- Model of `Edge::that`. -/
def Edge.that {N E : Type} : Edge N E → EdgeSingle N E
  | .Both s => { this := s.that, edge := s.edge }
  | .Loop s => s

/-- Model of `Edge::both`. -/
def Edge.both {N E : Type} : Edge N E → Option (EdgeBoth N E)
  | .Both s => some s
  | .Loop _ => none

/-- Model of `Edge::edge`. -/
def Edge.edge {N E : Type} (e : Edge N E) : E :=
  e.this.edge

/-- Model of `<Option<Edge> as OptionEdge>::this`. -/
def OptionEdge.this {N E : Type} (o : Option (Edge N E)) : Option (EdgeSingle N E) :=
  o.map Edge.this

/-- Model of `<Option<Edge> as OptionEdge>::that`. -/
def OptionEdge.that {N E : Type} (o : Option (Edge N E)) : Option (EdgeSingle N E) :=
  o.map Edge.that

/-- Model of `<Option<Edge> as OptionEdge>::both`. -/
def OptionEdge.both {N E : Type} : Option (Edge N E) → Option (EdgeBoth N E)
  | some s => s.both
  | none => none

/-- Model of `<Option<Edge> as OptionEdge>::edge`. -/
def OptionEdge.edge {N E : Type} (o : Option (Edge N E)) : Option E :=
  o.map Edge.edge

/-! ## Model of `src/dynamic_graph.rs` (the runtime generation-checked API)

Each anchor draws a fresh `gen` from a global counter; a `GraphRef` carries the
`gen` of the anchor that issued it plus the node address.  `check_parent` panics
(modelled as `Except.error`) when the tags differ.  Node payloads and the `refs`
sets are irrelevant to the session-isolation claims, so references are modelled
by their addresses and panics by `Except String`. -/

/-- Model of `GraphRef`: node address plus session generation tag. -/
structure GraphRefM where
  node : Nat
  gen : Nat
deriving DecidableEq

/-- Model of `AnchorMut` (the fields relevant to checking: its generation). -/
structure AnchorMutM where
  gen : Nat
deriving DecidableEq

/-- Model of `CursorMut`: generation tag plus current node address. -/
structure CursorMutM where
  gen : Nat
  current : Nat
deriving DecidableEq

/-- Model of `Cursor`: generation tag plus current node address. -/
structure CursorM where
  gen : Nat
  current : Nat
deriving DecidableEq

/-- Model of `check_parent` (identical bodies in `AnchorMut`, `CursorMut`,
`Cursor`): panic iff the pointer's tag differs from the session's. -/
def check_parentM (selfGen : Nat) (target : GraphRefM) : Except String Unit :=
  if selfGen ≠ target.gen then
    Except.error "Using reference of another anchor"
  else
    Except.ok ()

/-- Model of `AnchorMut::cursor_mut`. -/
def anchorMut_cursor_mut (a : AnchorMutM) (target : GraphRefM) :
    Except String CursorMutM := do
  check_parentM a.gen target
  pure { gen := a.gen, current := target.node }

/-- Model of `AnchorMut::cursor`. -/
def anchorMut_cursor (a : AnchorMutM) (target : GraphRefM) :
    Except String CursorM := do
  check_parentM a.gen target
  pure { gen := a.gen, current := target.node }

/-- Model of `AnchorMut::attach`: check, then insert the address into the root
set (the set is returned as the operation's effect). -/
def anchorMut_attach (a : AnchorMutM) (root : List Nat) (target : GraphRefM) :
    Except String (List Nat) := do
  check_parentM a.gen target
  pure (if target.node ∈ root then root else root ++ [target.node])

/-- Model of `CursorMut::attach`: check, then insert the address into the
current node's `refs` set (returned as the effect). -/
def cursorMut_attach (c : CursorMutM) (refs : List Nat) (target : GraphRefM) :
    Except String (List Nat) := do
  check_parentM c.gen target
  pure (if target.node ∈ refs then refs else refs ++ [target.node])

/-- Model of `CursorMut::detach`: check, then remove the address from the
current node's `refs` set. -/
def cursorMut_detach (c : CursorMutM) (refs : List Nat) (target : GraphRefM) :
    Except String (List Nat) := do
  check_parentM c.gen target
  pure (refs.filter (fun x => x ≠ target.node))

/-- Model of `CursorMut::jump`: check, then repoint the cursor. -/
def cursorMut_jump (c : CursorMutM) (target : GraphRefM) :
    Except String CursorMutM := do
  check_parentM c.gen target
  pure { c with current := target.node }

/-- Model of `CursorMut::bridge`: check, then return the two distinct node
addresses, or `none` when the target is the current node. -/
def cursorMut_bridge (c : CursorMutM) (target : GraphRefM) :
    Except String (Option (Nat × Nat)) := do
  check_parentM c.gen target
  pure (if c.current ≠ target.node then some (c.current, target.node) else none)

/-- Model of `<CursorMut as Index>::index`: check, then dereference (the
address stands for the returned payload reference). -/
def cursorMut_index (c : CursorMutM) (target : GraphRefM) :
    Except String Nat := do
  check_parentM c.gen target
  pure target.node

/-- Model of `<CursorMut as IndexMut>::index_mut`. -/
def cursorMut_index_mut (c : CursorMutM) (target : GraphRefM) :
    Except String Nat := do
  check_parentM c.gen target
  pure target.node

/-- Model of `CursorMut::is_at`: compares node addresses directly — the source
performs NO `check_parent` here. -/
def cursorMut_is_at (c : CursorMutM) (target : GraphRefM) : Bool :=
  c.current == target.node

/-- Model of `Cursor::is_at`: this one does check the tag before comparing. -/
def cursor_is_at (c : CursorM) (target : GraphRefM) : Except String Bool := do
  check_parentM c.gen target
  pure (c.current == target.node)

/-- Model of `Cursor::jump`. -/
def cursor_jump (c : CursorM) (target : GraphRefM) : Except String CursorM := do
  check_parentM c.gen target
  pure { c with current := target.node }

/-- Model of `<Cursor as Index>::index`. -/
def cursor_index (c : CursorM) (target : GraphRefM) : Except String Nat := do
  check_parentM c.gen target
  pure target.node

/-! ## Basic lemmas about the list primitives -/

theorem findNode_some_addr {N E : Type} {l : List (Node N E)} {a : Nat} {n : Node N E}
    (h : findNode l a = some n) : n.addr = a := by
  have := List.find?_some h
  simpa using this

theorem findNode_mem {N E : Type} {l : List (Node N E)} {a : Nat} {n : Node N E}
    (h : findNode l a = some n) : n ∈ l :=
  List.mem_of_find?_eq_some h

theorem findNode_eq_none {N E : Type} {l : List (Node N E)} {a : Nat} :
    findNode l a = none ↔ ∀ n ∈ l, n.addr ≠ a := by
  unfold findNode
  rw [List.find?_eq_none]
  simp

theorem findNode_isSome {N E : Type} {l : List (Node N E)} {a : Nat} :
    (findNode l a).isSome ↔ ∃ n ∈ l, n.addr = a := by
  unfold findNode
  rw [List.find?_isSome]
  simp

theorem mem_addr_inj {N E : Type} {l : List (Node N E)}
    (nd : (l.map Node.addr).Nodup) {m n : Node N E}
    (hm : m ∈ l) (hn : n ∈ l) (h : m.addr = n.addr) : m = n :=
  List.inj_on_of_nodup_map nd hm hn h

theorem findNode_eq_some_iff {N E : Type} {l : List (Node N E)}
    (nd : (l.map Node.addr).Nodup) {a : Nat} {n : Node N E} :
    findNode l a = some n ↔ n ∈ l ∧ n.addr = a := by
  constructor
  · intro h
    exact ⟨findNode_mem h, findNode_some_addr h⟩
  · rintro ⟨hmem, haddr⟩
    have hsome : (findNode l a).isSome := findNode_isSome.2 ⟨n, hmem, haddr⟩
    rcases Option.isSome_iff_exists.1 hsome with ⟨m, hm⟩
    have hma := findNode_some_addr hm
    have := mem_addr_inj nd (findNode_mem hm) hmem (hma.trans haddr.symm)
    rw [hm, this]

theorem findNode_of_getElem? {N E : Type} {l : List (Node N E)}
    (nd : (l.map Node.addr).Nodup) {i : Nat} {s : Node N E}
    (h : l[i]? = some s) : findNode l s.addr = some s := by
  rcases List.getElem?_eq_some.1 h with ⟨hi, rfl⟩
  exact (findNode_eq_some_iff nd).2 ⟨List.getElem_mem hi, rfl⟩

theorem getElem?_addr_inj {N E : Type} {l : List (Node N E)}
    (nd : (l.map Node.addr).Nodup) {i j : Nat} {s t : Node N E}
    (hi : l[i]? = some s) (hj : l[j]? = some t) (h : s.addr = t.addr) : i = j := by
  rcases List.getElem?_eq_some.1 hi with ⟨hi', hs⟩
  rcases List.getElem?_eq_some.1 hj with ⟨hj', ht⟩
  have him : i < (l.map Node.addr).length := by simpa using hi'
  have hjm : j < (l.map Node.addr).length := by simpa using hj'
  have heq : (l.map Node.addr)[i] = (l.map Node.addr)[j] := by
    rw [List.getElem_map, List.getElem_map, hs, ht, h]
  exact (List.Nodup.getElem_inj_iff nd).1 heq

theorem updateNode_length {N E : Type} (l : List (Node N E)) (a : Nat)
    (f : Node N E → Node N E) : (updateNode l a f).length = l.length := by
  induction l with
  | nil => rfl
  | cons n rest ih =>
    unfold updateNode
    by_cases h : n.addr = a <;> simp [h, ih]

theorem updateNode_of_findNode_none {N E : Type} {l : List (Node N E)} {a : Nat}
    (f : Node N E → Node N E) (h : findNode l a = none) : updateNode l a f = l := by
  induction l with
  | nil => rfl
  | cons n rest ih =>
    unfold findNode at h ih
    rw [List.find?_cons] at h
    unfold updateNode
    by_cases hn : n.addr = a
    · simp [hn] at h
    · have : (n.addr == a) = false := by simp [hn]
      rw [this] at h
      simp [hn, ih h]

theorem findNode_cons {N E : Type} {n : Node N E} {rest : List (Node N E)} {a : Nat} :
    findNode (n :: rest) a = if n.addr = a then some n else findNode rest a := by
  unfold findNode
  rw [List.find?_cons]
  by_cases h : n.addr = a
  · simp [h]
  · have : (n.addr == a) = false := by simp [h]
    simp [h, this]

theorem updateNode_eq_set {N E : Type} {l : List (Node N E)} {a : Nat} {i : Nat}
    {s : Node N E} (f : Node N E → Node N E)
    (hi : l[i]? = some s) (haddr : s.addr = a)
    (hfirst : ∀ j t, j < i → l[j]? = some t → t.addr ≠ a) :
    updateNode l a f = l.set i (f s) := by
  induction l generalizing i with
  | nil => simp at hi
  | cons n rest ih =>
    cases i with
    | zero =>
      simp at hi
      subst hi
      unfold updateNode
      simp [haddr]
    | succ k =>
      have hn : n.addr ≠ a := hfirst 0 n (Nat.succ_pos k) (by simp)
      unfold updateNode
      simp only [hn, if_false]
      have hk : rest[k]? = some s := by simpa using hi
      have hfirst' : ∀ j t, j < k → rest[j]? = some t → t.addr ≠ a := by
        intro j t hj hjt
        exact hfirst (j + 1) t (by omega) (by simpa using hjt)
      rw [ih hk hfirst']
      rfl

theorem updateAt_length {α : Type} (l : List α) (i : Nat) (f : α → α) :
    (updateAt l i f).length = l.length := by
  unfold updateAt
  cases h : l[i]? <;> simp

theorem updateAt_getElem? {α : Type} (l : List α) (i : Nat) (f : α → α) (j : Nat) :
    (updateAt l i f)[j]? = if i = j then (l[j]?).map f else l[j]? := by
  unfold updateAt
  cases h : l[i]? with
  | none =>
    by_cases hij : i = j
    · subst hij; simp [h]
    · simp [hij]
  | some x =>
    by_cases hij : i = j
    · subst hij
      have hlt : i < l.length := (List.getElem?_eq_some.1 h).1
      rw [List.getElem?_set_self hlt, h]
      simp
    · rw [List.getElem?_set_ne hij]
      simp [hij]

theorem swapList_length {α : Type} (l : List α) (i j : Nat) :
    (swapList l i j).length = l.length := by
  unfold swapList
  cases hi : l[i]? <;> cases hj : l[j]? <;> simp

theorem swapList_getElem? {α : Type} {l : List α} {i j : Nat} {x y : α}
    (hi : l[i]? = some x) (hj : l[j]? = some y) (k : Nat) :
    (swapList l i j)[k]? = if k = j then some x else if k = i then some y else l[k]? := by
  unfold swapList
  rw [hi, hj]
  have hi' : i < l.length := (List.getElem?_eq_some.1 hi).1
  have hj' : j < l.length := (List.getElem?_eq_some.1 hj).1
  by_cases hkj : k = j
  · subst hkj
    rw [List.getElem?_set_self (by simpa using hj')]
    simp
  · rw [List.getElem?_set_ne (fun h => hkj h.symm)]
    by_cases hki : k = i
    · subst hki
      rw [List.getElem?_set_self hi']
      simp [hkj]
    · rw [List.getElem?_set_ne (fun h => hki h.symm)]
      simp [hkj, hki]

/-! ## Counting unmarked nodes; termination of the sweep loop -/

/-- The number of nodes whose sweep parity differs from the arena's current
parity ("not yet visited this sweep"). -/
def unmarkedCount {N E : Type} (g : GraphRaw N E) : Nat :=
  g.data.countP (fun n => decide (n.cleanup_gen ≠ g.cleanup_gen))

theorem countP_updateNode {N E : Type} {l : List (Node N E)} {a : Nat} {s : Node N E}
    (p : Node N E → Bool) (f : Node N E → Node N E)
    (h : findNode l a = some s) :
    (updateNode l a f).countP p + (if p s then 1 else 0)
      = l.countP p + (if p (f s) then 1 else 0) := by
  induction l with
  | nil => simp [findNode] at h
  | cons n rest ih =>
    rw [findNode_cons] at h
    unfold updateNode
    by_cases hn : n.addr = a
    · simp only [hn, if_true] at h ⊢
      injection h with h
      subst h
      simp only [List.countP_cons]
      omega
    · simp only [hn, if_false] at h ⊢
      have := ih h
      simp only [List.countP_cons]
      omega

theorem indicator_le_countP {α : Type} {l : List α} {i : Nat} {x : α} (p : α → Bool)
    (h : l[i]? = some x) : (if p x then 1 else 0) ≤ l.countP p := by
  by_cases hp : p x
  · have hmem : x ∈ l := by
      rcases List.getElem?_eq_some.1 h with ⟨hi, rfl⟩
      exact List.getElem_mem hi
    have : 0 < l.countP p := List.countP_pos_iff.2 ⟨x, hmem, hp⟩
    simpa [hp] using this
  · simp [hp]

theorem countP_updateAt {α : Type} (l : List α) (i : Nat) (f : α → α) (p : α → Bool)
    (hf : ∀ x, p (f x) = p x) : (updateAt l i f).countP p = l.countP p := by
  unfold updateAt
  cases h : l[i]? with
  | none => rfl
  | some x =>
    have hi : i < l.length := (List.getElem?_eq_some.1 h).1
    have hx : l[i] = x := (List.getElem?_eq_some.1 h).2
    rw [List.countP_set _ _ _ _ hi, hx, hf]
    have := indicator_le_countP p h
    omega

theorem countP_swapList {α : Type} (l : List α) (i j : Nat) (p : α → Bool) :
    (swapList l i j).countP p = l.countP p := by
  unfold swapList
  cases hi : l[i]? with
  | none => rfl
  | some x =>
    cases hj : l[j]? with
    | none => rfl
    | some y =>
      have hi' : i < l.length := (List.getElem?_eq_some.1 hi).1
      have hj' : j < l.length := (List.getElem?_eq_some.1 hj).1
      have hxi : l[i] = x := (List.getElem?_eq_some.1 hi).2
      have hyj : l[j] = y := (List.getElem?_eq_some.1 hj).2
      have hj'' : j < (l.set i y).length := by simpa using hj'
      rw [List.countP_set _ _ _ _ hj'', List.countP_set _ _ _ _ hi', hxi]
      have hsetj : (l.set i y)[j] = if i = j then y else l[j] := List.getElem_set hj''
      have hA := indicator_le_countP p hi
      have hB := indicator_le_countP p hj
      by_cases hij : i = j
      · subst hij
        rw [hsetj]
        simp only [if_true]
        have : x = y := by rw [← hxi, hyj]
        subst this
        omega
      · rw [hsetj]
        simp only [hij, if_false, hyj]
        omega

theorem touch_snd_cleanup_gen {N E : Type} (g : GraphRaw N E) (f a : Nat) :
    (g.touch f a).2.cleanup_gen = g.cleanup_gen := by
  unfold GraphRaw.touch
  cases h : findNode g.data a with
  | none => rfl
  | some s =>
    by_cases hg : s.cleanup_gen ≠ g.cleanup_gen <;> simp [hg]

theorem touch_false_eq {N E : Type} {g : GraphRaw N E} {f a : Nat}
    (h : (g.touch f a).1 = false) : (g.touch f a).2 = g := by
  unfold GraphRaw.touch at h ⊢
  cases hf : findNode g.data a with
  | none => rfl
  | some s =>
    by_cases hg : s.cleanup_gen ≠ g.cleanup_gen
    · rw [hf] at h
      simp [hg] at h
    · simp [hf, hg]

theorem touch_data_length {N E : Type} (g : GraphRaw N E) (f a : Nat) :
    (g.touch f a).2.data.length = g.data.length := by
  unfold GraphRaw.touch
  cases hf : findNode g.data a with
  | none => rfl
  | some s =>
    by_cases hg : s.cleanup_gen ≠ g.cleanup_gen
    · dsimp only
      rw [if_pos hg]
      simp [swapList_length, updateAt_length, updateNode_length]
    · simp [hg]

theorem touch_true_count {N E : Type} {g : GraphRaw N E} {f a : Nat}
    (h : (g.touch f a).1 = true) :
    unmarkedCount (g.touch f a).2 + 1 = unmarkedCount g := by
  unfold GraphRaw.touch at h ⊢
  cases hf : findNode g.data a with
  | none => rw [hf] at h; simp at h
  | some s =>
    rw [hf] at h
    by_cases hg : s.cleanup_gen ≠ g.cleanup_gen
    · dsimp only
      rw [if_pos hg]
      unfold unmarkedCount
      simp only
      rw [countP_swapList, countP_updateAt]
      · have hcnt := countP_updateNode
          (fun n => decide (n.cleanup_gen ≠ g.cleanup_gen))
          (fun n => { n with cleanup_gen := g.cleanup_gen, store_index := f }) hf
        dsimp only at hcnt
        simp only [decide_eq_true_eq] at hcnt
        rw [if_pos hg, if_neg (by simp : ¬ (g.cleanup_gen ≠ g.cleanup_gen))] at hcnt
        omega
      · intro x
        rfl
    · simp [hg] at h

/-- The decreasing measure of the sweep loop. -/
def sweepMeasure {N E : Type} (st : CleanupState N E) : Nat :=
  2 * unmarkedCount st.parent + st.queue.length

theorem stateTouch_measure {N E : Type} (st : CleanupState N E) (a : Nat) :
    sweepMeasure (st.touch a) ≤ sweepMeasure st := by
  unfold CleanupState.touch
  cases hb : (st.parent.touch st.index a).1
  · simp only [hb, Bool.false_eq_true, if_false]
    have := touch_false_eq hb
    simp [sweepMeasure, this]
  · simp only [hb, if_true]
    have := touch_true_count hb
    simp only [sweepMeasure, List.length_append, List.length_cons, List.length_nil]
    omega

theorem foldl_touch_measure {N E : Type} (ts : List Nat) (st : CleanupState N E) :
    sweepMeasure (ts.foldl CleanupState.touch st) ≤ sweepMeasure st := by
  induction ts generalizing st with
  | nil => simp
  | cons t rest ih =>
    calc sweepMeasure ((t :: rest).foldl CleanupState.touch st)
        = sweepMeasure (rest.foldl CleanupState.touch (st.touch t)) := rfl
      _ ≤ sweepMeasure (st.touch t) := ih _
      _ ≤ sweepMeasure st := stateTouch_measure st t

theorem traverseNode_measure {N E : Type} (st : CleanupState N E) (n : Node N E) :
    sweepMeasure (traverseNode st n) ≤ sweepMeasure st := by
  unfold traverseNode
  generalize n.edges = es
  induction es generalizing st with
  | nil => simp
  | cons e rest ih =>
    calc sweepMeasure ((e :: rest).foldl (fun s e => s.touch e.1) st)
        = sweepMeasure (rest.foldl (fun s e => s.touch e.1) (st.touch e.1)) := rfl
      _ ≤ sweepMeasure (st.touch e.1) := ih _
      _ ≤ sweepMeasure st := stateTouch_measure st e.1

theorem sweepLoop_queue_nil {N E : Type} :
    ∀ (fuel : Nat) (st : CleanupState N E),
    sweepMeasure st ≤ fuel → (sweepLoop fuel st).queue = [] := by
  intro fuel
  induction fuel with
  | zero =>
    intro st h
    have hlen : st.queue.length = 0 := by
      unfold sweepMeasure at h
      omega
    unfold sweepLoop
    exact List.length_eq_zero.1 hlen
  | succ fuel ih =>
    intro st h
    unfold sweepLoop
    cases hq : st.queue with
    | nil => exact hq
    | cons q rest =>
      apply ih
      have hst1 : sweepMeasure { st with queue := rest } + 1 = sweepMeasure st := by
        unfold sweepMeasure
        simp [hq]
        omega
      cases hfind : findNode ({ st with queue := rest } : CleanupState N E).parent.data q with
      | some n =>
        simp only [hfind]
        have := traverseNode_measure ({ st with queue := rest } : CleanupState N E) n
        omega
      | none =>
        simp only [hfind]
        omega

/-! ## Positional specification of `GraphRaw::touch` -/

theorem touch_of_invalid {N E : Type} {g : GraphRaw N E} {f a : Nat}
    (hf : findNode g.data a = none) : g.touch f a = (false, g) := by
  unfold GraphRaw.touch
  rw [hf]

theorem touch_of_marked {N E : Type} {g : GraphRaw N E} {f a : Nat} {s : Node N E}
    (hf : findNode g.data a = some s) (hg : s.cleanup_gen = g.cleanup_gen) :
    g.touch f a = (false, g) := by
  unfold GraphRaw.touch
  rw [hf]
  simp [hg]

theorem touch_true_spec {N E : Type} {g : GraphRaw N E} {a i f : Nat} {s : Node N E}
    (nd : (g.data.map Node.addr).Nodup)
    (hstore : ∀ (j : Nat) (t : Node N E), g.data[j]? = some t → t.store_index = j)
    (hi : g.data[i]? = some s) (haddr : s.addr = a)
    (hgen : s.cleanup_gen ≠ g.cleanup_gen)
    (hflt : f < g.data.length) :
    (g.touch f a).1 = true ∧
    (g.touch f a).2.cleanup_gen = g.cleanup_gen ∧
    (g.touch f a).2.data.length = g.data.length ∧
    ∀ j, (g.touch f a).2.data[j]? =
      if j = f then some { s with cleanup_gen := g.cleanup_gen, store_index := f }
      else if j = i then (g.data[f]?).map (fun t : Node N E => { t with store_index := i })
      else g.data[j]? := by
  have hfind : findNode g.data a = some s := by
    rw [← haddr]
    exact findNode_of_getElem? nd hi
  have hsi : s.store_index = i := hstore i s hi
  have hilt : i < g.data.length := (List.getElem?_eq_some.1 hi).1
  have hfirst : ∀ (j : Nat) (t : Node N E), j < i → g.data[j]? = some t → t.addr ≠ a := by
    intro j t hj hjt hta
    have := getElem?_addr_inj nd hjt hi (hta.trans haddr.symm)
    omega
  have hred : g.touch f a = (true, GraphRaw.mk
      (swapList (updateAt
        (g.data.set i { s with cleanup_gen := g.cleanup_gen, store_index := f })
        f (fun n => { n with store_index := i })) i f)
      g.cleanup_gen) := by
    unfold GraphRaw.touch
    rw [hfind]
    dsimp only
    rw [if_pos hgen]
    rw [updateNode_eq_set _ hi haddr hfirst, hsi]
  rw [hred]
  refine ⟨rfl, rfl, ?_, ?_⟩
  · simp [swapList_length, updateAt_length]
  · intro j
    by_cases hif : i = f
    · subst hif
      have hD1i : (g.data.set i { s with cleanup_gen := g.cleanup_gen, store_index := i })[i]?
          = some { s with cleanup_gen := g.cleanup_gen, store_index := i } :=
        List.getElem?_set_self (by simpa using hilt)
      have hD2i : (updateAt
          (g.data.set i { s with cleanup_gen := g.cleanup_gen, store_index := i })
          i (fun n => { n with store_index := i }))[i]?
          = some { s with cleanup_gen := g.cleanup_gen, store_index := i } := by
        rw [updateAt_getElem?, if_pos rfl, hD1i]
        rfl
      rw [swapList_getElem? hD2i hD2i j]
      by_cases hji : j = i
      · subst hji
        simp
      · rw [if_neg hji, if_neg hji, if_neg hji, if_neg hji]
        rw [updateAt_getElem?, if_neg (fun h => hji h.symm),
          List.getElem?_set_ne (fun h => hji h.symm)]
    · have hD1i : (g.data.set i { s with cleanup_gen := g.cleanup_gen, store_index := f })[i]?
          = some { s with cleanup_gen := g.cleanup_gen, store_index := f } :=
        List.getElem?_set_self (by simpa using hilt)
      have hD1f : (g.data.set i { s with cleanup_gen := g.cleanup_gen, store_index := f })[f]?
          = g.data[f]? := List.getElem?_set_ne hif
      have hgf : g.data[f]? = some (g.data[f]) := List.getElem?_eq_some.2 ⟨hflt, rfl⟩
      have hD2i : (updateAt
          (g.data.set i { s with cleanup_gen := g.cleanup_gen, store_index := f })
          f (fun n => { n with store_index := i }))[i]?
          = some { s with cleanup_gen := g.cleanup_gen, store_index := f } := by
        rw [updateAt_getElem?, if_neg (fun h => hif h.symm), hD1i]
      have hD2f : (updateAt
          (g.data.set i { s with cleanup_gen := g.cleanup_gen, store_index := f })
          f (fun n => { n with store_index := i }))[f]?
          = some { g.data[f] with store_index := i } := by
        rw [updateAt_getElem?, if_pos rfl, hD1f, hgf]
        rfl
      rw [swapList_getElem? hD2i hD2f j]
      by_cases hjf : j = f
      · subst hjf
        simp
      · rw [if_neg hjf, if_neg hjf]
        by_cases hji : j = i
        · subst hji
          rw [if_pos rfl, if_pos rfl, hgf]
          rfl
        · rw [if_neg hji, if_neg hji]
          rw [updateAt_getElem?, if_neg (fun h => hjf h.symm),
            List.getElem?_set_ne (fun h => hji h.symm)]

/-! ## Views, reachability, marking -/

/-- The part of a node the sweep must preserve: its payload and edge
collection (`node_views` expose exactly these two fields). -/
structure NodeView (N E : Type) where
  payload : N
  edges : List (Nat × E)
deriving DecidableEq

/-- Project the payload-and-edges view out of an arena node. -/
def Node.view {N E : Type} (n : Node N E) : NodeView N E :=
  { payload := n.payload, edges := n.edges }

/-- The view stored at address `a`, if any. -/
def viewAt {N E : Type} (l : List (Node N E)) (a : Nat) : Option (NodeView N E) :=
  (findNode l a).map Node.view

/-- Reachability from the root collection by following edge-collection
entries, over the graph `g`. -/
inductive Reach {N E : Type} (g : GraphRaw N E) (root : List Nat) : Nat → Prop where
  | root : ∀ {a : Nat}, a ∈ root → Reach g root a
  | step : ∀ {a b : Nat} {n : Node N E}, Reach g root a → findNode g.data a = some n →
      (∃ e ∈ n.edges, e.1 = b) → Reach g root b

/-- Address `b` is marked in arena `p`: its node carries the current parity. -/
def markedAddr {N E : Type} (p : GraphRaw N E) (b : Nat) : Prop :=
  ∃ n, findNode p.data b = some n ∧ n.cleanup_gen = p.cleanup_gen

theorem nodup_map_addr_of_getElem? {N E : Type} {l : List (Node N E)}
    (h : ∀ (j k : Nat) (nj nk : Node N E), l[j]? = some nj → l[k]? = some nk →
      nj.addr = nk.addr → j = k) :
    (l.map Node.addr).Nodup := by
  rw [List.nodup_iff_injective_get]
  intro a b hab
  have ha : (l.map Node.addr).get a = l[a.1].addr := by
    simp [List.get_eq_getElem]
  have hb : (l.map Node.addr).get b = l[b.1].addr := by
    simp [List.get_eq_getElem]
  have ha1 : a.1 < l.length := by
    have := a.2
    simpa using this
  have hb1 : b.1 < l.length := by
    have := b.2
    simpa using this
  have hja : l[a.1]? = some (l[a.1]) := List.getElem?_eq_some.2 ⟨ha1, rfl⟩
  have hjb : l[b.1]? = some (l[b.1]) := List.getElem?_eq_some.2 ⟨hb1, rfl⟩
  have := h a.1 b.1 _ _ hja hjb (by rw [← ha, ← hb, hab])
  exact Fin.ext this

theorem viewAt_eq_of_mem_equiv_except {N E : Type} {l l' : List (Node N E)}
    (nd : (l.map Node.addr).Nodup) (nd' : (l'.map Node.addr).Nodup)
    (A : Nat → Prop)
    (h1 : ∀ n' ∈ l', ¬ A n'.addr → ∃ n ∈ l, n.addr = n'.addr ∧ n.view = n'.view)
    (h2 : ∀ n ∈ l, ¬ A n.addr → ∃ n' ∈ l', n'.addr = n.addr ∧ n'.view = n.view) :
    ∀ b, ¬ A b → viewAt l' b = viewAt l b := by
  intro b hb
  unfold viewAt
  cases hfind : findNode l' b with
  | some m =>
    have hmem := findNode_mem hfind
    have hmaddr := findNode_some_addr hfind
    rcases h1 m hmem (by rw [hmaddr]; exact hb) with ⟨n, hn, hna, hnv⟩
    have : findNode l b = some n :=
      (findNode_eq_some_iff nd).2 ⟨hn, by rw [hna, hmaddr]⟩
    rw [this]
    simp [hnv]
  | none =>
    cases hfind2 : findNode l b with
    | none => rfl
    | some n =>
      have hmem := findNode_mem hfind2
      have hnaddr := findNode_some_addr hfind2
      rcases h2 n hmem (by rw [hnaddr]; exact hb) with ⟨m, hm, hma, hmv⟩
      have : findNode l' b = some m :=
        (findNode_eq_some_iff nd').2 ⟨hm, by rw [hma, hnaddr]⟩
      rw [hfind] at this
      exact absurd this (by simp)

theorem findNode_append {N E : Type} (l1 l2 : List (Node N E)) (a : Nat) :
    findNode (l1 ++ l2) a = (findNode l1 a).or (findNode l2 a) := by
  induction l1 with
  | nil => simp [findNode]
  | cons n rest ih =>
    rw [List.cons_append]
    rw [findNode_cons, findNode_cons]
    by_cases h : n.addr = a
    · simp [h]
    · simp only [h, if_false]
      exact ih

theorem mem_iff_exists_getElem? {α : Type} {l : List α} {x : α} :
    x ∈ l ↔ ∃ i : Nat, l[i]? = some x := by
  constructor
  · intro h
    rcases List.getElem_of_mem h with ⟨i, hi, hx⟩
    exact ⟨i, List.getElem?_eq_some.2 ⟨hi, hx⟩⟩
  · rintro ⟨i, hi⟩
    rcases List.getElem?_eq_some.1 hi with ⟨h, rfl⟩
    exact List.getElem_mem h

/-! ## Claims about edges, bridge, session isolation and spawn -/

/-- C10: for every `Edge` value the accessors `this`, `that` and `edge` are
total — they reduce to a value on both constructors, including on a self-loop;
`both` returns `some` exactly on the `Both` variant and `none` exactly on a
`Loop`; and on a `Loop` value `that` returns the same node data as `this`.
The `OptionEdge` wrappers behave as the pointwise lift. -/
theorem claim_C10_edge_accessors {N E : Type} :
    (∀ b : EdgeBoth N E, (Edge.Both b).this = { this := b.this, edge := b.edge } ∧
      (Edge.Both b).that = { this := b.that, edge := b.edge } ∧
      (Edge.Both b).edge = b.edge ∧ (Edge.Both b).both = some b) ∧
    (∀ s : EdgeSingle N E, (Edge.Loop s).this = s ∧ (Edge.Loop s).that = s ∧
      (Edge.Loop s).edge = s.edge ∧ (Edge.Loop s).both = none ∧
      (Edge.Loop s).that = (Edge.Loop s).this) ∧
    (∀ e : Edge N E, ((e.both).isSome ↔ ∃ b, e = Edge.Both b)) ∧
    (∀ e : Edge N E, OptionEdge.this (some e) = some e.this ∧
      OptionEdge.that (some e) = some e.that ∧
      OptionEdge.both (some e) = e.both ∧
      OptionEdge.edge (some e) = some e.edge) ∧
    (OptionEdge.this (none : Option (Edge N E)) = none ∧
      OptionEdge.that (none : Option (Edge N E)) = none ∧
      OptionEdge.both (none : Option (Edge N E)) = none ∧
      OptionEdge.edge (none : Option (Edge N E)) = none) := by
  refine ⟨fun b => ⟨rfl, rfl, rfl, rfl⟩, fun s => ⟨rfl, rfl, rfl, rfl, rfl⟩,
    fun e => ?_, fun e => ⟨rfl, rfl, rfl, rfl⟩, rfl, rfl, rfl, rfl⟩
  cases e with
  | Both b => simp [Edge.both]
  | Loop s => simp [Edge.both]

/-- C2: for pointers issued by the same anchor (so both dereference to live
nodes of the arena), `bridge(src, dst)` returns `None` exactly when
`src == dst` (pointer comparison is by node address); when they differ it
returns the two views, which come from distinct nodes at distinct arena
positions and therefore can never alias.  The old `CursorMut::bridge` behaves
the same way after its session check passes. -/
theorem claim_C2_bridge_irreflexive {N E : Type} (g : GraphRaw N E) :
    (∀ src dst : Nat, g.bridge src dst = none ↔ src = dst) ∧
    (∀ src dst : Nat, src ≠ dst →
      g.bridge src dst = some (findNode g.data src, findNode g.data dst)) ∧
    (∀ (src dst : Nat) (ns nt : Node N E), src ≠ dst →
      findNode g.data src = some ns → findNode g.data dst = some nt →
      ns ≠ nt ∧ ∃ (i j : Nat), i ≠ j ∧ g.data[i]? = some ns ∧ g.data[j]? = some nt) ∧
    (∀ (c : CursorMutM) (t : GraphRefM), c.gen = t.gen →
      cursorMut_bridge c t =
        Except.ok (if c.current ≠ t.node then some (c.current, t.node) else none) ∧
      (cursorMut_bridge c t = Except.ok none ↔ c.current = t.node)) := by
  refine ⟨?_, ?_, ?_, ?_⟩
  · intro src dst
    unfold GraphRaw.bridge
    by_cases h : src = dst
    · simp [h]
    · simp [h]
  · intro src dst h
    unfold GraphRaw.bridge
    simp [h]
  · intro src dst ns nt h hs ht
    have hsa := findNode_some_addr hs
    have hta := findNode_some_addr ht
    have hne : ns ≠ nt := by
      intro he
      apply h
      rw [← hsa, ← hta, he]
    refine ⟨hne, ?_⟩
    rcases mem_iff_exists_getElem?.1 (findNode_mem hs) with ⟨i, hi⟩
    rcases mem_iff_exists_getElem?.1 (findNode_mem ht) with ⟨j, hj⟩
    refine ⟨i, j, ?_, hi, hj⟩
    intro he
    subst he
    rw [hi] at hj
    exact hne (Option.some_inj.1 hj)
  · intro c t h
    have hch : check_parentM c.gen t = Except.ok () := by
      unfold check_parentM
      rw [if_neg (by simp [h])]
    constructor
    · unfold cursorMut_bridge
      rw [hch]
      rfl
    · unfold cursorMut_bridge
      rw [hch]
      show Except.ok (if c.current ≠ t.node then some (c.current, t.node) else none)
        = Except.ok none ↔ c.current = t.node
      by_cases hc : c.current = t.node
      · simp [hc]
      · simp [hc]

/-- Witness for C2 at a concrete arena with two nodes at addresses 1 and 2. -/
theorem claim_C2_bridge_irreflexive_witness :
    (GraphRaw.mk [Node.mk 1 0 [] CleanupGen.Even 0, Node.mk 2 0 [] CleanupGen.Even 1]
        CleanupGen.Even : GraphRaw Nat Nat).bridge 1 2
      = some (some (Node.mk 1 0 [] CleanupGen.Even 0),
              some (Node.mk 2 0 [] CleanupGen.Even 1)) ∧
    (GraphRaw.mk [Node.mk 1 0 [] CleanupGen.Even 0, Node.mk 2 0 [] CleanupGen.Even 1]
        CleanupGen.Even : GraphRaw Nat Nat).bridge 1 1 = none ∧
    Node.mk 1 (0 : Nat) ([] : List (Nat × Nat)) CleanupGen.Even 0
      ≠ Node.mk 2 0 [] CleanupGen.Even 1 ∧
    cursorMut_bridge (CursorMutM.mk 7 3) (GraphRefM.mk 4 7) = Except.ok (some (3, 4)) := by
  have h := claim_C2_bridge_irreflexive
    (GraphRaw.mk [Node.mk 1 0 [] CleanupGen.Even 0, Node.mk 2 0 [] CleanupGen.Even 1]
      CleanupGen.Even : GraphRaw Nat Nat)
  refine ⟨?_, ?_, ?_, ?_⟩
  · rw [h.2.1 1 2 (by decide)]
    decide
  · exact (h.1 1 1).2 rfl
  · exact (h.2.2.1 1 2 _ _ (by decide) (by decide) (by decide)).1
  · rw [(h.2.2.2 (CursorMutM.mk 7 3) (GraphRefM.mk 4 7) (by decide)).1]
    rfl

/-- C3 counterexample: `CursorMut::is_at` performs no session check at all —
presented with a pointer carrying a foreign generation tag it silently
compares addresses and returns an ordinary boolean instead of failing with
the invariant-violation panic. -/
theorem claim_C3_is_at_counterexample :
    (CursorMutM.mk 1 5).gen ≠ (GraphRefM.mk 5 0).gen ∧
    cursorMut_is_at (CursorMutM.mk 1 5) (GraphRefM.mk 5 0) = true := by
  decide

theorem checkFail {β : Type} (selfGen : Nat) (t : GraphRefM) (h : selfGen ≠ t.gen)
    (k : Unit → Except String β) :
    (check_parentM selfGen t >>= k) = Except.error "Using reference of another anchor" := by
  unfold check_parentM
  rw [if_pos h]
  rfl

/-- C3 (amended): every pointer-accepting operation of the generation-checked
API — cursor creation, attach, detach, jump, bridge, indexing, and
`Cursor::is_at` — fails with the invariant-violation panic when the pointer's
session tag differs from the anchor's, with the single exception of
`CursorMut::is_at`, which performs no check and just compares node
addresses. -/
theorem claim_C3_amended_isolation :
    ∀ (t : GraphRefM) (a : AnchorMutM) (c : CursorMutM) (r : CursorM)
      (root refs : List Nat),
      a.gen ≠ t.gen → c.gen ≠ t.gen → r.gen ≠ t.gen →
      anchorMut_cursor_mut a t = Except.error "Using reference of another anchor" ∧
      anchorMut_cursor a t = Except.error "Using reference of another anchor" ∧
      anchorMut_attach a root t = Except.error "Using reference of another anchor" ∧
      cursorMut_attach c refs t = Except.error "Using reference of another anchor" ∧
      cursorMut_detach c refs t = Except.error "Using reference of another anchor" ∧
      cursorMut_jump c t = Except.error "Using reference of another anchor" ∧
      cursorMut_bridge c t = Except.error "Using reference of another anchor" ∧
      cursorMut_index c t = Except.error "Using reference of another anchor" ∧
      cursorMut_index_mut c t = Except.error "Using reference of another anchor" ∧
      cursor_is_at r t = Except.error "Using reference of another anchor" ∧
      cursor_jump r t = Except.error "Using reference of another anchor" ∧
      cursor_index r t = Except.error "Using reference of another anchor" ∧
      cursorMut_is_at c t = (c.current == t.node) := by
  intro t a c r root refs ha hc hr
  exact ⟨checkFail a.gen t ha _, checkFail a.gen t ha _, checkFail a.gen t ha _,
    checkFail c.gen t hc _, checkFail c.gen t hc _, checkFail c.gen t hc _,
    checkFail c.gen t hc _, checkFail c.gen t hc _, checkFail c.gen t hc _,
    checkFail r.gen t hr _, checkFail r.gen t hr _, checkFail r.gen t hr _, rfl⟩

/-- Witness for the amended C3 at concrete mismatched generations. -/
theorem claim_C3_amended_isolation_witness :
    anchorMut_cursor_mut (AnchorMutM.mk 0) (GraphRefM.mk 5 1)
      = Except.error "Using reference of another anchor" ∧
    cursor_is_at (CursorM.mk 0 5) (GraphRefM.mk 5 1)
      = Except.error "Using reference of another anchor" ∧
    cursorMut_is_at (CursorMutM.mk 0 5) (GraphRefM.mk 5 1) = true := by
  have h := claim_C3_amended_isolation (GraphRefM.mk 5 1) (AnchorMutM.mk 0)
    (CursorMutM.mk 0 5) (CursorM.mk 0 5) [] [] (by decide) (by decide) (by decide)
  exact ⟨h.1, h.2.2.2.2.2.2.2.2.2.1, by decide⟩

/-- C8: spawning is a round trip — the node returned by `spawn_detached`
carries the given payload, an empty edge collection, the current parity and
slot equal to the pre-push length; the arena grows by exactly one, all
previously existing nodes are unchanged, and the new node is detached: it is
not in the root collection and no edge of any node points to it. -/
theorem claim_C8_spawn_roundtrip {N E : Type} (g : GraphRaw N E) (R : List Nat)
    (addr : Nat) (p : N)
    (hfresh : ∀ n ∈ g.data, n.addr ≠ addr)
    (hroot : ∀ r ∈ R, ∃ m ∈ g.data, m.addr = r)
    (hdang : ∀ n ∈ g.data, ∀ e ∈ n.edges, ∃ m ∈ g.data, m.addr = e.1) :
    (spawn_detached g addr p).2 = addr ∧
    findNode (spawn_detached g addr p).1.data addr = some
      { addr := addr, payload := p, edges := [],
        cleanup_gen := g.cleanup_gen, store_index := g.data.length } ∧
    (spawn_detached g addr p).1.data.length = g.data.length + 1 ∧
    (∀ j : Nat, j < g.data.length → (spawn_detached g addr p).1.data[j]? = g.data[j]?) ∧
    (∀ b : Nat, b ≠ addr → findNode (spawn_detached g addr p).1.data b = findNode g.data b) ∧
    addr ∉ R ∧
    (∀ n ∈ (spawn_detached g addr p).1.data, ∀ e ∈ n.edges, e.1 ≠ addr) ∧
    (spawn_detached g addr p).1.cleanup_gen = g.cleanup_gen := by
  refine ⟨rfl, ?_, by simp [spawn_detached], ?_, ?_, ?_, ?_, rfl⟩
  · show findNode (g.data ++ [_]) addr = _
    rw [findNode_append]
    rw [findNode_eq_none.2 hfresh]
    rw [findNode_cons]
    simp
  · intro j hj
    show (g.data ++ [_])[j]? = g.data[j]?
    rw [List.getElem?_append]
    rw [if_pos hj]
  · intro b hb
    show findNode (g.data ++ [_]) b = findNode g.data b
    rw [findNode_append]
    have hne : ¬ ((Node.mk addr p ([] : List (Nat × E)) g.cleanup_gen
        g.data.length).addr = b) := by
      intro h
      exact hb (by simpa using h.symm)
    have hsingle : findNode [(Node.mk addr p ([] : List (Nat × E)) g.cleanup_gen
        g.data.length)] b = none := by
      rw [findNode_cons, if_neg hne]
      rfl
    rw [hsingle]
    cases findNode g.data b <;> rfl
  · intro hmem
    rcases hroot addr hmem with ⟨m, hm, hma⟩
    exact hfresh m hm hma
  · intro n hn e he
    rcases List.mem_append.1 hn with hold | hnew
    · intro heq
      rcases hdang n hold e he with ⟨m, hm, hma⟩
      rw [heq] at hma
      exact hfresh m hm hma
    · have : n = (⟨addr, p, [], g.cleanup_gen, g.data.length⟩ : Node N E) := by
        simpa using hnew
      rw [this] at he
      simp at he

/-- Witness for C8 at a concrete one-node arena. -/
theorem claim_C8_spawn_roundtrip_witness :
    findNode (spawn_detached (GraphRaw.mk [Node.mk 1 5 [(1, 9)] CleanupGen.Even 0]
        CleanupGen.Even : GraphRaw Nat Nat) 2 7).1.data 2
      = some (Node.mk 2 7 [] CleanupGen.Even 1) ∧
    (spawn_detached (GraphRaw.mk [Node.mk 1 5 [(1, 9)] CleanupGen.Even 0]
        CleanupGen.Even : GraphRaw Nat Nat) 2 7).1.data.length = 2 ∧
    (2 : Nat) ∉ [1] := by
  have h := claim_C8_spawn_roundtrip
    (GraphRaw.mk [Node.mk 1 5 [(1, 9)] CleanupGen.Even 0] CleanupGen.Even : GraphRaw Nat Nat)
    [1] 2 7 (by decide) (by decide) (by decide)
  exact ⟨h.2.1, h.2.2.1, h.2.2.2.2.2.1⟩

/-! ## Positional specification of `GraphRaw::kill`; the slot invariant -/

/-- The arena invariant `storage[i].meta.store_index == i` for every live
node at rest. -/
def StoreInvP {N E : Type} (g : GraphRaw N E) : Prop :=
  ∀ j, (hj : j < g.data.length) → (g.data[j]).store_index = j

instance {N E : Type} (g : GraphRaw N E) : Decidable (StoreInvP g) := by
  unfold StoreInvP
  infer_instance

theorem storeInvP_iff {N E : Type} {g : GraphRaw N E} :
    StoreInvP g ↔ ∀ (j : Nat) (t : Node N E), g.data[j]? = some t → t.store_index = j := by
  constructor
  · intro h j t hjt
    rcases List.getElem?_eq_some.1 hjt with ⟨hj, rfl⟩
    exact h j hj
  · intro h j hj
    exact h j _ (List.getElem?_eq_some.2 ⟨hj, rfl⟩)

theorem kill_spec {N E : Type} {g : GraphRaw N E} {a : Nat} {v : Node N E} {i : Nat}
    (nd : (g.data.map Node.addr).Nodup)
    (hstore : ∀ (j : Nat) (t : Node N E), g.data[j]? = some t → t.store_index = j)
    (hi : g.data[i]? = some v) (haddr : v.addr = a) :
    (g.kill a).cleanup_gen = g.cleanup_gen ∧
    (g.kill a).data.length = g.data.length - 1 ∧
    ∀ j : Nat, (g.kill a).data[j]? =
      if j < g.data.length - 1 then
        (if j = i then
          (g.data[g.data.length - 1]?).map
            (fun t : Node N E => { t with store_index := i })
        else g.data[j]?)
      else none := by
  have hfind : findNode g.data a = some v := by
    rw [← haddr]
    exact findNode_of_getElem? nd hi
  have hvi : v.store_index = i := hstore i v hi
  have hilt : i < g.data.length := (List.getElem?_eq_some.1 hi).1
  have hpos : 0 < g.data.length := Nat.lt_of_le_of_lt (Nat.zero_le i) hilt
  have hL1 : g.data.length - 1 < g.data.length := by omega
  have hgl : g.data[g.data.length - 1]? = some (g.data[g.data.length - 1]) :=
    List.getElem?_eq_some.2 ⟨hL1, rfl⟩
  have hlast : g.data.getLast? = some (g.data[g.data.length - 1]) := by
    rw [List.getLast?_eq_getElem?]
    exact hgl
  have hD1len : (updateAt g.data (g.data.length - 1)
      (fun n : Node N E => { n with store_index := v.store_index })).length
      = g.data.length := updateAt_length _ _ _
  have hD1get : ∀ j : Nat, (updateAt g.data (g.data.length - 1)
      (fun n : Node N E => { n with store_index := v.store_index }))[j]?
      = if g.data.length - 1 = j then
          (g.data[j]?).map (fun n : Node N E => { n with store_index := v.store_index })
        else g.data[j]? := fun j => updateAt_getElem? _ _ _ j
  have hD1last : (updateAt g.data (g.data.length - 1)
      (fun n : Node N E => { n with store_index := v.store_index })).getLast?
      = some { g.data[g.data.length - 1] with store_index := v.store_index } := by
    rw [List.getLast?_eq_getElem?, hD1len, hD1get, if_pos rfl, hgl]
    rfl
  have hred : g.kill a = GraphRaw.mk
      (swapRemove (updateAt g.data (g.data.length - 1)
        (fun n : Node N E => { n with store_index := v.store_index })) v.store_index)
      g.cleanup_gen := by
    unfold GraphRaw.kill
    rw [hfind, hlast]
  rw [hred]
  have hswap : swapRemove (updateAt g.data (g.data.length - 1)
      (fun n : Node N E => { n with store_index := v.store_index })) v.store_index
      = ((updateAt g.data (g.data.length - 1)
          (fun n : Node N E => { n with store_index := v.store_index })).set
            v.store_index
            { g.data[g.data.length - 1] with store_index := v.store_index }).dropLast := by
    unfold swapRemove
    rw [hD1last]
    dsimp only
    rw [if_pos (by rw [hD1len, hvi]; exact hilt)]
  rw [hswap]
  refine ⟨rfl, ?_, ?_⟩
  · simp [hD1len]
  · intro j
    rw [List.getElem?_dropLast, List.length_set, hD1len]
    by_cases hjlt : j < g.data.length - 1
    · rw [if_pos hjlt, if_pos hjlt]
      by_cases hji : j = i
      · subst hji
        rw [if_pos rfl, hgl]
        rw [← hvi]
        rw [List.getElem?_set_self (by rw [hD1len]; omega)]
        rfl
      · rw [if_neg hji]
        rw [List.getElem?_set_ne (by rw [hvi]; exact fun h => hji h.symm)]
        rw [hD1get, if_neg (by omega)]
    · rw [if_neg hjlt, if_neg hjlt]

theorem kill_origin {N E : Type} {g : GraphRaw N E} {a : Nat} {v : Node N E} {i : Nat}
    (nd : (g.data.map Node.addr).Nodup)
    (hstore : ∀ (j : Nat) (t : Node N E), g.data[j]? = some t → t.store_index = j)
    (hi : g.data[i]? = some v) (haddr : v.addr = a) :
    ∀ (j : Nat) (nj : Node N E), (g.kill a).data[j]? = some nj →
      j < g.data.length - 1 ∧
      ∃ t : Node N E, g.data[if j = i then g.data.length - 1 else j]? = some t ∧
        t.addr = nj.addr ∧ t.view = nj.view := by
  obtain ⟨-, -, hget⟩ := kill_spec nd hstore hi haddr
  intro j nj hj
  rw [hget j] at hj
  by_cases hjlt : j < g.data.length - 1
  · rw [if_pos hjlt] at hj
    refine ⟨hjlt, ?_⟩
    by_cases hji : j = i
    · rw [if_pos hji] at hj
      rw [if_pos hji]
      cases hgl2 : g.data[g.data.length - 1]? with
      | none =>
        rw [hgl2] at hj
        simp at hj
      | some t =>
        rw [hgl2] at hj
        have hnj : nj = { t with store_index := i } := by
          have := Option.some_inj.1 hj
          exact this.symm
        rw [hnj]
        exact ⟨t, rfl, rfl, rfl⟩
    · rw [if_neg hji] at hj
      rw [if_neg hji]
      exact ⟨nj, hj, rfl, rfl⟩
  · rw [if_neg hjlt] at hj
    simp at hj

theorem kill_nodup {N E : Type} {g : GraphRaw N E} {a : Nat} {v : Node N E} {i : Nat}
    (nd : (g.data.map Node.addr).Nodup)
    (hstore : ∀ (j : Nat) (t : Node N E), g.data[j]? = some t → t.store_index = j)
    (hi : g.data[i]? = some v) (haddr : v.addr = a) :
    ((g.kill a).data.map Node.addr).Nodup := by
  have horig := kill_origin nd hstore hi haddr
  apply nodup_map_addr_of_getElem?
  intro j k nj nk hj hk heq
  obtain ⟨hjlt, tj, htj, haj, -⟩ := horig j nj hj
  obtain ⟨hklt, tk, htk, hak, -⟩ := horig k nk hk
  have heq2 : tj.addr = tk.addr := by rw [haj, hak, heq]
  have hpsi := getElem?_addr_inj nd htj htk heq2
  by_cases hji : j = i <;> by_cases hki : k = i
  · rw [hji, hki]
  · rw [if_pos hji, if_neg hki] at hpsi
    omega
  · rw [if_neg hji, if_pos hki] at hpsi
    omega
  · rw [if_neg hji, if_neg hki] at hpsi
    exact hpsi

theorem kill_find_none {N E : Type} {g : GraphRaw N E} {a : Nat} {v : Node N E} {i : Nat}
    (nd : (g.data.map Node.addr).Nodup)
    (hstore : ∀ (j : Nat) (t : Node N E), g.data[j]? = some t → t.store_index = j)
    (hi : g.data[i]? = some v) (haddr : v.addr = a) :
    findNode (g.kill a).data a = none := by
  have horig := kill_origin nd hstore hi haddr
  rw [findNode_eq_none]
  intro n hn hna
  rcases mem_iff_exists_getElem?.1 hn with ⟨j, hj⟩
  obtain ⟨hjlt, t, ht, hta, -⟩ := horig j n hj
  have hta2 : t.addr = v.addr := by rw [hta, hna, haddr]
  have := getElem?_addr_inj nd ht hi hta2
  by_cases hji : j = i
  · rw [if_pos hji] at this
    omega
  · rw [if_neg hji] at this
    exact hji this

theorem kill_viewAt {N E : Type} {g : GraphRaw N E} {a : Nat} {v : Node N E} {i : Nat}
    (nd : (g.data.map Node.addr).Nodup)
    (hstore : ∀ (j : Nat) (t : Node N E), g.data[j]? = some t → t.store_index = j)
    (hi : g.data[i]? = some v) (haddr : v.addr = a) :
    ∀ b : Nat, b ≠ a → viewAt (g.kill a).data b = viewAt g.data b := by
  have horig := kill_origin nd hstore hi haddr
  obtain ⟨-, hlen, hget⟩ := kill_spec nd hstore hi haddr
  have nd' := kill_nodup nd hstore hi haddr
  have hilt : i < g.data.length := (List.getElem?_eq_some.1 hi).1
  apply viewAt_eq_of_mem_equiv_except nd nd' (fun x => x = a)
  · intro m hm _
    rcases mem_iff_exists_getElem?.1 hm with ⟨j, hj⟩
    obtain ⟨hjlt, t, ht, hta, htv⟩ := horig j m hj
    refine ⟨t, ?_, hta, htv⟩
    exact mem_iff_exists_getElem?.2 ⟨_, ht⟩
  · intro n hn hna
    rcases mem_iff_exists_getElem?.1 hn with ⟨k, hk⟩
    have hklt : k < g.data.length := (List.getElem?_eq_some.1 hk).1
    have hki : k ≠ i := by
      intro h
      rw [h, hi] at hk
      have : n = v := Option.some_inj.1 hk.symm
      exact hna (by rw [this, haddr])
    by_cases hkl : k = g.data.length - 1
    · have hil : i < g.data.length - 1 := by omega
      have : (g.kill a).data[i]? = some { n with store_index := i } := by
        rw [hget i, if_pos hil, if_pos rfl, ← hkl, hk]
        rfl
      exact ⟨{ n with store_index := i }, mem_iff_exists_getElem?.2 ⟨i, this⟩, rfl, rfl⟩
    · have hkl2 : k < g.data.length - 1 := by omega
      have : (g.kill a).data[k]? = some n := by
        rw [hget k, if_pos hkl2, if_neg hki, hk]
      exact ⟨n, mem_iff_exists_getElem?.2 ⟨k, this⟩, rfl, rfl⟩

theorem kill_of_invalid {N E : Type} {g : GraphRaw N E} {a : Nat}
    (hf : findNode g.data a = none) : g.kill a = g := by
  unfold GraphRaw.kill
  rw [hf]

theorem touch_store_inv {N E : Type} {g : GraphRaw N E} {f a : Nat}
    (nd : (g.data.map Node.addr).Nodup)
    (hstore : ∀ (j : Nat) (t : Node N E), g.data[j]? = some t → t.store_index = j)
    (hf : f < g.data.length) :
    ∀ (j : Nat) (t : Node N E), (g.touch f a).2.data[j]? = some t → t.store_index = j := by
  cases hfind : findNode g.data a with
  | none =>
    rw [touch_of_invalid hfind]
    exact hstore
  | some s =>
    by_cases hgen : s.cleanup_gen = g.cleanup_gen
    · rw [touch_of_marked hfind hgen]
      exact hstore
    · rcases mem_iff_exists_getElem?.1 (findNode_mem hfind) with ⟨i, hi⟩
      have haddr := findNode_some_addr hfind
      obtain ⟨-, -, -, hget⟩ := touch_true_spec nd hstore hi haddr hgen hf
      intro j t hjt
      rw [hget j] at hjt
      by_cases hjf : j = f
      · rw [if_pos hjf] at hjt
        rw [← Option.some_inj.1 hjt]
        exact hjf.symm
      · rw [if_neg hjf] at hjt
        by_cases hji : j = i
        · rw [if_pos hji] at hjt
          cases hu : g.data[f]? with
          | none =>
            rw [hu] at hjt
            simp at hjt
          | some u =>
            rw [hu] at hjt
            have : ({ u with store_index := i } : Node N E) = t := Option.some_inj.1 hjt
            rw [← this]
            exact hji.symm
        · rw [if_neg hji] at hjt
          exact hstore j t hjt

theorem spawn_nodup {N E : Type} {g : GraphRaw N E} {addr : Nat} {p : N}
    (nd : (g.data.map Node.addr).Nodup) (hfresh : ∀ n ∈ g.data, n.addr ≠ addr) :
    ((spawn_detached g addr p).1.data.map Node.addr).Nodup := by
  show ((g.data ++ [_]).map Node.addr).Nodup
  rw [List.map_append, List.nodup_append]
  refine ⟨nd, by simp, ?_⟩
  intro x hx hy
  have hxa : x = addr := by simpa using hy
  rcases List.mem_map.1 hx with ⟨n, hn, hna⟩
  exact hfresh n hn (by rw [hna, hxa])

theorem spawn_store {N E : Type} {g : GraphRaw N E} {addr : Nat} {p : N}
    (hstore : ∀ (j : Nat) (t : Node N E), g.data[j]? = some t → t.store_index = j) :
    ∀ (j : Nat) (t : Node N E), (spawn_detached g addr p).1.data[j]? = some t →
      t.store_index = j := by
  intro j t hjt
  have hjt2 : (g.data ++ [(Node.mk addr p [] g.cleanup_gen g.data.length : Node N E)])[j]?
      = some t := hjt
  rw [List.getElem?_append] at hjt2
  by_cases hj : j < g.data.length
  · rw [if_pos hj] at hjt2
    exact hstore j t hjt2
  · rw [if_neg hj] at hjt2
    cases hd : j - g.data.length with
    | zero =>
      rw [hd] at hjt2
      have ht : (Node.mk addr p [] g.cleanup_gen g.data.length : Node N E) = t := by
        simpa using hjt2
      rw [← ht]
      show g.data.length = j
      omega
    | succ k =>
      rw [hd] at hjt2
      simp at hjt2

/-- C4: `touch(frontier, item)` on a node whose sweep tag already equals the
arena's parity returns `false` and changes nothing; on an unvisited node it
returns `true`, marks the node with the current parity, swaps it into
`storage[frontier]`, and rewrites the `store_index` of both swapped nodes so
each again records its actual position (including the self-swap case). -/
theorem claim_C4_touch_spec {N E : Type} (g : GraphRaw N E) (frontier a i : Nat)
    (s : Node N E)
    (nd : (g.data.map Node.addr).Nodup)
    (hstore : StoreInvP g)
    (hi : g.data[i]? = some s) (haddr : s.addr = a)
    (hfrontier : frontier < g.data.length) :
    (s.cleanup_gen = g.cleanup_gen → g.touch frontier a = (false, g)) ∧
    (s.cleanup_gen ≠ g.cleanup_gen →
      (g.touch frontier a).1 = true ∧
      (g.touch frontier a).2.cleanup_gen = g.cleanup_gen ∧
      (g.touch frontier a).2.data.length = g.data.length ∧
      (∀ j : Nat, (g.touch frontier a).2.data[j]? =
        if j = frontier then
          some { s with cleanup_gen := g.cleanup_gen, store_index := frontier }
        else if j = i then
          (g.data[frontier]?).map (fun t : Node N E => { t with store_index := i })
        else g.data[j]?) ∧
      (∀ (j : Nat) (t : Node N E), (g.touch frontier a).2.data[j]? = some t →
        t.store_index = j)) := by
  have hstore2 := storeInvP_iff.1 hstore
  have hfind : findNode g.data a = some s := by
    rw [← haddr]
    exact findNode_of_getElem? nd hi
  constructor
  · intro hgen
    exact touch_of_marked hfind hgen
  · intro hgen
    obtain ⟨h1, h2, h3, h4⟩ := touch_true_spec nd hstore2 hi haddr hgen hfrontier
    exact ⟨h1, h2, h3, h4, touch_store_inv nd hstore2 hfrontier⟩

/-- Witness for C4: a one-node arena, node unvisited, then visited. -/
theorem claim_C4_touch_spec_witness :
    ((GraphRaw.mk [Node.mk 1 0 [] CleanupGen.Odd 0] CleanupGen.Even
        : GraphRaw Nat Nat).touch 0 1).1 = true ∧
    ((GraphRaw.mk [Node.mk 1 0 [] CleanupGen.Even 0] CleanupGen.Even
        : GraphRaw Nat Nat).touch 0 1)
      = (false, GraphRaw.mk [Node.mk 1 0 [] CleanupGen.Even 0] CleanupGen.Even) := by
  constructor
  · exact (((claim_C4_touch_spec (GraphRaw.mk [Node.mk 1 0 [] CleanupGen.Odd 0]
      CleanupGen.Even) 0 1 0 (Node.mk 1 0 [] CleanupGen.Odd 0)
      (by decide) (by decide) (by decide) (by decide) (by decide)).2) (by decide)).1
  · exact ((claim_C4_touch_spec (GraphRaw.mk [Node.mk 1 0 [] CleanupGen.Even 0]
      CleanupGen.Even) 0 1 0 (Node.mk 1 0 [] CleanupGen.Even 0)
      (by decide) (by decide) (by decide) (by decide) (by decide)).1) (by decide)

/-- C5: the slot invariant `storage[i].meta.store_index == i` is preserved by
`spawn_detached` (which stamps the new node with the pre-push length), by
`touch` (which restores both swapped nodes' slots, self-swap included), and
by `kill` (which writes the victim's slot into the last element before the
`swap_remove`, including when the victim is the last element). -/
theorem claim_C5_slot_invariant {N E : Type} (g : GraphRaw N E) :
    (∀ (addr : Nat) (p : N), StoreInvP g → StoreInvP (spawn_detached g addr p).1) ∧
    (∀ frontier a : Nat, (g.data.map Node.addr).Nodup → StoreInvP g →
      frontier < g.data.length → StoreInvP (g.touch frontier a).2) ∧
    (∀ a : Nat, (g.data.map Node.addr).Nodup → StoreInvP g → StoreInvP (g.kill a)) := by
  refine ⟨?_, ?_, ?_⟩
  · intro addr p hstore
    exact storeInvP_iff.2 (spawn_store (storeInvP_iff.1 hstore))
  · intro frontier a nd hstore hf
    exact storeInvP_iff.2 (touch_store_inv nd (storeInvP_iff.1 hstore) hf)
  · intro a nd hstore
    cases hfind : findNode g.data a with
    | none =>
      rw [kill_of_invalid hfind]
      exact hstore
    | some v =>
      rcases mem_iff_exists_getElem?.1 (findNode_mem hfind) with ⟨i, hi⟩
      have haddr := findNode_some_addr hfind
      obtain ⟨-, -, hget⟩ := kill_spec nd (storeInvP_iff.1 hstore) hi haddr
      apply storeInvP_iff.2
      intro j t hjt
      rw [hget j] at hjt
      by_cases hjlt : j < g.data.length - 1
      · rw [if_pos hjlt] at hjt
        by_cases hji : j = i
        · rw [if_pos hji] at hjt
          cases hu : g.data[g.data.length - 1]? with
          | none =>
            rw [hu] at hjt
            simp at hjt
          | some u =>
            rw [hu] at hjt
            have : ({ u with store_index := i } : Node N E) = t := Option.some_inj.1 hjt
            rw [← this]
            exact hji.symm
        · rw [if_neg hji] at hjt
          exact storeInvP_iff.1 hstore j t hjt
      · rw [if_neg hjlt] at hjt
        simp at hjt

/-- Witness for C5 on a concrete two-node arena. -/
theorem claim_C5_slot_invariant_witness :
    StoreInvP ((GraphRaw.mk [Node.mk 1 0 [] CleanupGen.Odd 0,
        Node.mk 2 0 [] CleanupGen.Odd 1] CleanupGen.Even : GraphRaw Nat Nat).touch 0 2).2 ∧
    StoreInvP (spawn_detached (GraphRaw.mk [Node.mk 1 0 [] CleanupGen.Odd 0,
        Node.mk 2 0 [] CleanupGen.Odd 1] CleanupGen.Even : GraphRaw Nat Nat) 3 7).1 ∧
    StoreInvP ((GraphRaw.mk [Node.mk 1 0 [] CleanupGen.Odd 0,
        Node.mk 2 0 [] CleanupGen.Odd 1] CleanupGen.Even : GraphRaw Nat Nat).kill 1) := by
  have h := claim_C5_slot_invariant (GraphRaw.mk [Node.mk 1 0 [] CleanupGen.Odd 0,
    Node.mk 2 0 [] CleanupGen.Odd 1] CleanupGen.Even : GraphRaw Nat Nat)
  exact ⟨h.2.1 0 2 (by decide) (by decide) (by decide),
    h.1 3 7 (by decide), h.2.2 1 (by decide) (by decide)⟩

/-- C9: under its precondition (the pointer dereferences to a live node),
`kill` removes exactly that node by swapping it with the last element and
shrinking the arena by one; every other node keeps its payload and edge
collection; and spawning a node and immediately killing it restores the
arena length to its value before the spawn. -/
theorem claim_C9_kill_removes {N E : Type} (g : GraphRaw N E) (a : Nat) (v : Node N E)
    (nd : (g.data.map Node.addr).Nodup)
    (hstore : StoreInvP g)
    (hfind : findNode g.data a = some v) :
    (g.kill a).data.length = g.data.length - 1 ∧
    findNode (g.kill a).data a = none ∧
    (∀ b : Nat, b ≠ a → viewAt (g.kill a).data b = viewAt g.data b) ∧
    (g.kill a).cleanup_gen = g.cleanup_gen ∧
    ∀ (addr2 : Nat) (p : N), (∀ n ∈ g.data, n.addr ≠ addr2) →
      ((spawn_detached g addr2 p).1.kill addr2).data.length = g.data.length := by
  have hstore2 := storeInvP_iff.1 hstore
  rcases mem_iff_exists_getElem?.1 (findNode_mem hfind) with ⟨i, hi⟩
  have haddr := findNode_some_addr hfind
  obtain ⟨hgen, hlen, -⟩ := kill_spec nd hstore2 hi haddr
  refine ⟨hlen, kill_find_none nd hstore2 hi haddr,
    kill_viewAt nd hstore2 hi haddr, hgen, ?_⟩
  intro addr2 p hfresh
  have nd2 := @spawn_nodup N E g addr2 p nd hfresh
  have hstore3 := @spawn_store N E g addr2 p hstore2
  have hi2 : (spawn_detached g addr2 p).1.data[g.data.length]?
      = some (Node.mk addr2 p [] g.cleanup_gen g.data.length) := by
    show (g.data ++ [_])[g.data.length]? = _
    exact List.getElem?_concat_length _ _
  obtain ⟨-, hlen2, -⟩ := kill_spec nd2 hstore3 hi2
    (show (Node.mk addr2 p ([] : List (Nat × E)) g.cleanup_gen g.data.length).addr = addr2
      from rfl)
  have hslen : (spawn_detached g addr2 p).1.data.length = g.data.length + 1 := by
    simp [spawn_detached]
  omega

/-- Witness for C9: kill the second of two nodes, and spawn-then-kill. -/
theorem claim_C9_kill_removes_witness :
    ((GraphRaw.mk [Node.mk 1 5 [] CleanupGen.Even 0, Node.mk 2 6 [] CleanupGen.Even 1]
        CleanupGen.Even : GraphRaw Nat Nat).kill 2).data.length = 1 ∧
    findNode ((GraphRaw.mk [Node.mk 1 5 [] CleanupGen.Even 0,
        Node.mk 2 6 [] CleanupGen.Even 1]
        CleanupGen.Even : GraphRaw Nat Nat).kill 2).data 2 = none ∧
    ((spawn_detached (GraphRaw.mk [Node.mk 1 5 [] CleanupGen.Even 0,
        Node.mk 2 6 [] CleanupGen.Even 1]
        CleanupGen.Even : GraphRaw Nat Nat) 3 7).1.kill 3).data.length = 2 := by
  have h := claim_C9_kill_removes (GraphRaw.mk [Node.mk 1 5 [] CleanupGen.Even 0,
    Node.mk 2 6 [] CleanupGen.Even 1] CleanupGen.Even : GraphRaw Nat Nat) 2
    (Node.mk 2 6 [] CleanupGen.Even 1) (by decide) (by decide) (by decide)
  exact ⟨h.1, h.2.1, h.2.2.2.2 3 7 (by decide)⟩

/-! ## Effect of `touch` on addresses, views and the marked set -/

/-- The index transposition a successful `touch` performs on the arena
vector: position `frontier` and the touched node's position swap. -/
def swapIdx (i f j : Nat) : Nat :=
  if j = f then i else if j = i then f else j

theorem swapIdx_invol (i f j : Nat) : swapIdx i f (swapIdx i f j) = j := by
  unfold swapIdx
  split_ifs <;> omega

theorem touch_pair_spec {N E : Type} {g : GraphRaw N E} {a i f : Nat} {s : Node N E}
    (nd : (g.data.map Node.addr).Nodup)
    (hstore : ∀ (j : Nat) (t : Node N E), g.data[j]? = some t → t.store_index = j)
    (hi : g.data[i]? = some s) (haddr : s.addr = a)
    (hgen : s.cleanup_gen ≠ g.cleanup_gen)
    (hf : f < g.data.length) :
    ∀ j : Nat, ((g.touch f a).2.data[j]?).map (fun n : Node N E => (n.addr, n.view))
      = (g.data[swapIdx i f j]?).map (fun n : Node N E => (n.addr, n.view)) := by
  obtain ⟨-, -, -, hget⟩ := touch_true_spec nd hstore hi haddr hgen hf
  intro j
  rw [hget j]
  unfold swapIdx
  by_cases hjf : j = f
  · rw [if_pos hjf, if_pos hjf, hi]
    rfl
  · rw [if_neg hjf, if_neg hjf]
    by_cases hji : j = i
    · rw [if_pos hji, if_pos hji]
      cases g.data[f]? <;> rfl
    · rw [if_neg hji, if_neg hji]

theorem pair_extract {N E : Type} {o : Option (Node N E)} {n : Node N E}
    (h : Option.map (fun m : Node N E => (m.addr, m.view)) (some n)
      = o.map (fun m : Node N E => (m.addr, m.view))) :
    ∃ t : Node N E, o = some t ∧ t.addr = n.addr ∧ t.view = n.view := by
  cases o with
  | none => simp at h
  | some t =>
    simp only [Option.map_some'] at h
    have h2 := Option.some_inj.1 h
    exact ⟨t, rfl, (congrArg Prod.fst h2).symm, (congrArg Prod.snd h2).symm⟩

theorem touch_nodup_all {N E : Type} {g : GraphRaw N E} {f a : Nat}
    (nd : (g.data.map Node.addr).Nodup)
    (hstore : ∀ (j : Nat) (t : Node N E), g.data[j]? = some t → t.store_index = j)
    (hf : f < g.data.length) :
    (((g.touch f a).2).data.map Node.addr).Nodup := by
  cases hfind : findNode g.data a with
  | none =>
    rw [touch_of_invalid hfind]
    exact nd
  | some s =>
    by_cases hgen : s.cleanup_gen = g.cleanup_gen
    · rw [touch_of_marked hfind hgen]
      exact nd
    · rcases mem_iff_exists_getElem?.1 (findNode_mem hfind) with ⟨i, hi⟩
      have haddr := findNode_some_addr hfind
      have hpair := touch_pair_spec nd hstore hi haddr hgen hf
      apply nodup_map_addr_of_getElem?
      intro j k nj nk hj hk heq
      have hpj := hpair j
      rw [hj] at hpj
      have hpk := hpair k
      rw [hk] at hpk
      rcases pair_extract hpj with ⟨tj, htj, haj, -⟩
      rcases pair_extract hpk with ⟨tk, htk, hak, -⟩
      have := getElem?_addr_inj nd htj htk (by rw [haj, hak, heq])
      have h2 := congrArg (swapIdx i f) this
      rw [swapIdx_invol, swapIdx_invol] at h2
      exact h2

theorem touch_viewAt_all {N E : Type} {g : GraphRaw N E} {f a : Nat}
    (nd : (g.data.map Node.addr).Nodup)
    (hstore : ∀ (j : Nat) (t : Node N E), g.data[j]? = some t → t.store_index = j)
    (hf : f < g.data.length) :
    ∀ x : Nat, viewAt (g.touch f a).2.data x = viewAt g.data x := by
  cases hfind : findNode g.data a with
  | none =>
    rw [touch_of_invalid hfind]
    intro x
    rfl
  | some s =>
    by_cases hgen : s.cleanup_gen = g.cleanup_gen
    · rw [touch_of_marked hfind hgen]
      intro x
      rfl
    · rcases mem_iff_exists_getElem?.1 (findNode_mem hfind) with ⟨i, hi⟩
      have haddr := findNode_some_addr hfind
      have hpair := touch_pair_spec nd hstore hi haddr hgen hf
      have nd' := touch_nodup_all nd hstore hf (a := a)
      intro x
      refine viewAt_eq_of_mem_equiv_except nd nd' (fun _ => False) ?_ ?_ x (fun h => h)
      · intro m hm _
        rcases mem_iff_exists_getElem?.1 hm with ⟨j, hj⟩
        have hpj := hpair j
        rw [hj] at hpj
        rcases pair_extract hpj with ⟨t, ht, hta, htv⟩
        exact ⟨t, mem_iff_exists_getElem?.2 ⟨_, ht⟩, hta, htv⟩
      · intro n hn _
        rcases mem_iff_exists_getElem?.1 hn with ⟨k, hk⟩
        have hpk := hpair (swapIdx i f k)
        rw [swapIdx_invol, hk] at hpk
        rcases pair_extract hpk.symm with ⟨m, hm, hma, hmv⟩
        exact ⟨m, mem_iff_exists_getElem?.2 ⟨_, hm⟩, hma, hmv⟩

theorem touch_marked_iff {N E : Type} {g : GraphRaw N E} {a i f : Nat} {s : Node N E}
    (nd : (g.data.map Node.addr).Nodup)
    (hstore : ∀ (j : Nat) (t : Node N E), g.data[j]? = some t → t.store_index = j)
    (hi : g.data[i]? = some s) (haddr : s.addr = a)
    (hgen : s.cleanup_gen ≠ g.cleanup_gen)
    (hf : f < g.data.length) :
    ∀ x : Nat, markedAddr (g.touch f a).2 x ↔ (markedAddr g x ∨ x = a) := by
  obtain ⟨-, hgen2, -, hget⟩ := touch_true_spec nd hstore hi haddr hgen hf
  have nd' := touch_nodup_all nd hstore hf (a := a)
  intro x
  constructor
  · rintro ⟨n, hfindn, hgenn⟩
    have hx := findNode_some_addr hfindn
    have hgenn2 : n.cleanup_gen = g.cleanup_gen := by rw [hgenn, hgen2]
    rcases mem_iff_exists_getElem?.1 (findNode_mem hfindn) with ⟨j, hj⟩
    rw [hget j] at hj
    by_cases hjf : j = f
    · rw [if_pos hjf] at hj
      right
      have hn : n = { s with cleanup_gen := g.cleanup_gen, store_index := f } :=
        (Option.some_inj.1 hj).symm
      rw [← hx, hn]
      exact haddr
    · rw [if_neg hjf] at hj
      by_cases hji : j = i
      · rw [if_pos hji] at hj
        cases ht : g.data[f]? with
        | none =>
          rw [ht] at hj
          simp at hj
        | some t =>
          rw [ht] at hj
          have hn : n = { t with store_index := i } := by
            have := Option.some_inj.1 hj
            exact this.symm
          left
          have hta : t.addr = x := by rw [← hx, hn]
          refine ⟨t, ?_, ?_⟩
          · rw [← hta]
            exact findNode_of_getElem? nd ht
          · have : n.cleanup_gen = t.cleanup_gen := by rw [hn]
            rw [← this]
            exact hgenn2
      · rw [if_neg hji] at hj
        left
        refine ⟨n, ?_, hgenn2⟩
        rw [← hx]
        exact findNode_of_getElem? nd hj
  · rintro (⟨m, hm, hgm⟩ | rfl)
    · rcases mem_iff_exists_getElem?.1 (findNode_mem hm) with ⟨k, hk⟩
      have hxk := findNode_some_addr hm
      have hki : k ≠ i := by
        intro h
        rw [h] at hk
        have hms : s = m := Option.some_inj.1 (hi.symm.trans hk)
        rw [← hms] at hgm
        exact hgen hgm
      by_cases hkf : k = f
      · have hif : i ≠ f := fun h => hki (by rw [hkf, h])
        have hri : (g.touch f a).2.data[i]? = some { m with store_index := i } := by
          rw [hget i, if_neg hif, if_pos rfl, ← hkf, hk]
          rfl
        refine ⟨{ m with store_index := i }, ?_, ?_⟩
        · have h2 := findNode_of_getElem? nd' hri
          rw [← hxk]
          exact h2
        · show m.cleanup_gen = _
          rw [hgm, ← hgen2]
      · have hrk : (g.touch f a).2.data[k]? = some m := by
          rw [hget k, if_neg hkf, if_neg hki]
          exact hk
        refine ⟨m, ?_, ?_⟩
        · rw [← hxk]
          exact findNode_of_getElem? nd' hrk
        · rw [hgm, ← hgen2]
    · have hrf : (g.touch f x).2.data[f]?
          = some { s with cleanup_gen := g.cleanup_gen, store_index := f } := by
        rw [hget f, if_pos rfl]
      refine ⟨{ s with cleanup_gen := g.cleanup_gen, store_index := f }, ?_, ?_⟩
      · apply (findNode_eq_some_iff nd').2
        refine ⟨mem_iff_exists_getElem?.2 ⟨f, hrf⟩, ?_⟩
        show s.addr = x
        exact haddr
      · show g.cleanup_gen = _
        rw [hgen2]

theorem stateTouch_noop {N E : Type} {st : CleanupState N E} {b : Nat}
    (h : (st.parent.touch st.index b).1 = false) : st.touch b = st := by
  unfold CleanupState.touch
  rw [if_neg (by rw [h]; exact Bool.false_ne_true), touch_false_eq h]

theorem findNode_isSome_of_viewAt {N E : Type} {l m : List (Node N E)} {x : Nat}
    (h : viewAt l x = viewAt m x) : (findNode l x).isSome = (findNode m x).isSome := by
  unfold viewAt at h
  cases hl : findNode l x with
  | none =>
    cases hm : findNode m x with
    | none => rfl
    | some n =>
      rw [hl, hm] at h
      simp at h
  | some n =>
    cases hm : findNode m x with
    | none =>
      rw [hl, hm] at h
      simp at h
    | some n2 => rfl

/-- The invariant maintained by the mark-and-compact sweep, relative to the
original (pre-flip) graph `g0` and root list `R`. -/
structure SweepInv {N E : Type} (g0 : GraphRaw N E) (R : List Nat)
    (st : CleanupState N E) : Prop where
  gen_eq : st.parent.cleanup_gen = g0.cleanup_gen.flip
  len_eq : st.parent.data.length = g0.data.length
  nodup : (st.parent.data.map Node.addr).Nodup
  store : ∀ (j : Nat) (t : Node N E), st.parent.data[j]? = some t → t.store_index = j
  views : ∀ x : Nat, viewAt st.parent.data x = viewAt g0.data x
  index_le : st.index ≤ st.parent.data.length
  front : ∀ (j : Nat) (t : Node N E), st.parent.data[j]? = some t →
    (t.cleanup_gen = st.parent.cleanup_gen ↔ j < st.index)
  qmarked : ∀ x ∈ st.queue, markedAddr st.parent x
  qnodup : st.queue.Nodup
  sound : ∀ x : Nat, markedAddr st.parent x → Reach g0 R x

/-- Every marked node whose address is no longer queued has had all of its
edge targets marked. -/
def processedInv {N E : Type} (st : CleanupState N E) : Prop :=
  ∀ x : Nat, markedAddr st.parent x → x ∉ st.queue →
    ∀ t : Node N E, findNode st.parent.data x = some t →
      ∀ e ∈ t.edges, markedAddr st.parent e.1

theorem stateTouch_step {N E : Type} {g0 : GraphRaw N E} {R : List Nat}
    {st : CleanupState N E} (hInv : SweepInv g0 R st) {b : Nat}
    (hreach : Reach g0 R b) :
    SweepInv g0 R (st.touch b) ∧
    (∀ x, markedAddr st.parent x → markedAddr (st.touch b).parent x) ∧
    ((findNode st.parent.data b).isSome → markedAddr (st.touch b).parent b) ∧
    ((st.touch b).queue = st.queue ∧ (st.touch b).parent = st.parent ∨
      ((st.touch b).queue = st.queue ++ [b] ∧
        ∀ x, markedAddr (st.touch b).parent x ↔ (markedAddr st.parent x ∨ x = b))) := by
  cases hfind : findNode st.parent.data b with
  | none =>
    have hb : (st.parent.touch st.index b).1 = false := by
      rw [touch_of_invalid hfind]
    have hno := stateTouch_noop hb
    rw [hno]
    refine ⟨hInv, fun x h => h, ?_, Or.inl ⟨rfl, rfl⟩⟩
    intro hsome
    simp at hsome
  | some s =>
    by_cases hgen : s.cleanup_gen = st.parent.cleanup_gen
    · have hb : (st.parent.touch st.index b).1 = false := by
        rw [touch_of_marked hfind hgen]
      have hno := stateTouch_noop hb
      rw [hno]
      exact ⟨hInv, fun x h => h, fun _ => ⟨s, hfind, hgen⟩, Or.inl ⟨rfl, rfl⟩⟩
    · rcases mem_iff_exists_getElem?.1 (findNode_mem hfind) with ⟨i, hi⟩
      have haddr := findNode_some_addr hfind
      have hiidx : st.index ≤ i := by
        by_contra h
        exact hgen ((hInv.front i s hi).2 (by omega))
      have hilt : i < st.parent.data.length := (List.getElem?_eq_some.1 hi).1
      have hf : st.index < st.parent.data.length := by omega
      obtain ⟨htrue, hgen2, hlen2, hget⟩ :=
        touch_true_spec hInv.nodup hInv.store hi haddr hgen hf
      have hmarked := touch_marked_iff hInv.nodup hInv.store hi haddr hgen hf
      have hviews := touch_viewAt_all (a := b) hInv.nodup hInv.store hf
      have hnd' := touch_nodup_all (a := b) hInv.nodup hInv.store hf
      have hstore' := touch_store_inv (a := b) hInv.nodup hInv.store hf
      have hstep : st.touch b = CleanupState.mk (st.parent.touch st.index b).2
          (st.queue ++ [b]) (st.index + 1) := by
        unfold CleanupState.touch
        rw [if_pos htrue]
      rw [hstep]
      have hbnotq : b ∉ st.queue := by
        intro hmem
        rcases hInv.qmarked b hmem with ⟨n, hn, hgn⟩
        rw [hfind] at hn
        rw [← Option.some_inj.1 hn] at hgn
        exact hgen hgn
      refine ⟨⟨hgen2.trans hInv.gen_eq, hlen2.trans hInv.len_eq, hnd', hstore',
        fun x => (hviews x).trans (hInv.views x), ?_, ?_, ?_, ?_, ?_⟩,
        fun x hx => (hmarked x).2 (Or.inl hx),
        fun _ => (hmarked b).2 (Or.inr rfl),
        Or.inr ⟨rfl, hmarked⟩⟩
      · show st.index + 1 ≤ (st.parent.touch st.index b).2.data.length
        rw [hlen2]
        omega
      · intro j t hjt
        show t.cleanup_gen = (st.parent.touch st.index b).2.cleanup_gen ↔ j < st.index + 1
        rw [hgen2]
        rw [hget j] at hjt
        by_cases hjf : j = st.index
        · rw [if_pos hjf] at hjt
          have ht : t = { s with cleanup_gen := st.parent.cleanup_gen, store_index := st.index } :=
            (Option.some_inj.1 hjt).symm
          constructor
          · intro _
            omega
          · intro _
            rw [ht]
        · rw [if_neg hjf] at hjt
          by_cases hji : j = i
          · rw [if_pos hji] at hjt
            cases hu : st.parent.data[st.index]? with
            | none =>
              rw [hu] at hjt
              simp at hjt
            | some u =>
              rw [hu] at hjt
              have ht : t = { u with store_index := i } := by
                have := Option.some_inj.1 hjt
                exact this.symm
              have hufront := hInv.front st.index u hu
              have hune : u.cleanup_gen ≠ st.parent.cleanup_gen := by
                intro h
                have := hufront.1 h
                omega
              constructor
              · intro h
                exact absurd (by rw [ht] at h; exact h) hune
              · intro h
                omega
          · rw [if_neg hji] at hjt
            have := hInv.front j t hjt
            constructor
            · intro h
              have := this.1 h
              omega
            · intro h
              exact this.2 (by omega)
      · intro x hx
        rcases List.mem_append.1 hx with hold | hnew
        · exact (hmarked x).2 (Or.inl (hInv.qmarked x hold))
        · have : x = b := by simpa using hnew
          rw [this]
          exact (hmarked b).2 (Or.inr rfl)
      · rw [List.nodup_append]
        refine ⟨hInv.qnodup, by simp, ?_⟩
        intro x hxq hxb
        have : x = b := by simpa using hxb
        rw [this] at hxq
        exact hbnotq hxq
      · intro x hx
        rcases (hmarked x).1 hx with hold | hxb
        · exact hInv.sound x hold
        · rw [hxb]
          exact hreach

theorem foldTouch_inv {N E : Type} {g0 : GraphRaw N E} {R : List Nat} (ts : List Nat) :
    ∀ st : CleanupState N E, SweepInv g0 R st → (∀ b ∈ ts, Reach g0 R b) →
    SweepInv g0 R (ts.foldl CleanupState.touch st) ∧
    (∃ del : List Nat, (ts.foldl CleanupState.touch st).queue = st.queue ++ del ∧
      ∀ x, markedAddr (ts.foldl CleanupState.touch st).parent x ↔
        (markedAddr st.parent x ∨ x ∈ del)) ∧
    (∀ b ∈ ts, (findNode g0.data b).isSome →
      markedAddr (ts.foldl CleanupState.touch st).parent b) := by
  induction ts with
  | nil =>
    intro st hInv _
    exact ⟨hInv, ⟨[], by simp, fun x => by simp⟩, by simp⟩
  | cons t rest ih =>
    intro st hInv hreach
    obtain ⟨hInv1, hmono1, hmark1, hcase⟩ :=
      stateTouch_step hInv (hreach t (List.mem_cons_self t rest))
    have hfold : (t :: rest).foldl CleanupState.touch st
        = rest.foldl CleanupState.touch (st.touch t) := rfl
    rw [hfold]
    obtain ⟨hInv2, ⟨del, hq2, hm2⟩, hmark2⟩ := ih (st.touch t) hInv1
      (fun b hb => hreach b (List.mem_cons_of_mem t hb))
    rcases hcase with ⟨hqe, hpe⟩ | ⟨hqe, hme⟩
    · refine ⟨hInv2, ⟨del, by rw [hq2, hqe], ?_⟩, ?_⟩
      · intro x
        rw [hm2 x, hpe]
    
      · intro b hb hbsome
        rcases List.mem_cons.1 hb with rfl | hbr
        · apply (hm2 b).2
          left
          apply hmark1
          have hiff := findNode_isSome_of_viewAt (hInv.views b)
          rw [hiff]
          exact hbsome
        · exact hmark2 b hbr hbsome
    · refine ⟨hInv2, ⟨t :: del, ?_, ?_⟩, ?_⟩
      · rw [hq2, hqe]
        simp
      · intro x
        rw [hm2 x, hme x]
        constructor
        · rintro ((h | rfl) | h)
          · exact Or.inl h
          · exact Or.inr (List.mem_cons_self x del)
          · exact Or.inr (List.mem_cons_of_mem t h)
        · rintro (h | h)
          · exact Or.inl (Or.inl h)
          · rcases List.mem_cons.1 h with rfl | h2
            · exact Or.inl (Or.inr rfl)
            · exact Or.inr h2
      · intro b hb hbsome
        rcases List.mem_cons.1 hb with rfl | hbr
        · apply (hm2 b).2
          left
          apply hmark1
          have hiff := findNode_isSome_of_viewAt (hInv.views b)
          rw [hiff]
          exact hbsome
        · exact hmark2 b hbr hbsome

theorem view_edges_eq {N E : Type} {l m : List (Node N E)} {x : Nat} {t u : Node N E}
    (hv : viewAt l x = viewAt m x) (ht : findNode l x = some t)
    (hu : findNode m x = some u) : t.edges = u.edges := by
  unfold viewAt at hv
  rw [ht, hu] at hv
  have h2 : t.view = u.view := by simpa using hv
  exact congrArg NodeView.edges h2

theorem sweepLoop_inv {N E : Type} {g0 : GraphRaw N E} {R : List Nat}
    (hdang : ∀ n ∈ g0.data, ∀ e ∈ n.edges, ∃ m ∈ g0.data, m.addr = e.1) :
    ∀ (fuel : Nat) (st : CleanupState N E), SweepInv g0 R st → processedInv st →
    SweepInv g0 R (sweepLoop fuel st) ∧ processedInv (sweepLoop fuel st) ∧
    (∀ x, markedAddr st.parent x → markedAddr (sweepLoop fuel st).parent x) := by
  intro fuel
  induction fuel with
  | zero =>
    intro st hInv hproc
    exact ⟨hInv, hproc, fun x h => h⟩
  | succ fuel ih =>
    intro st hInv hproc
    cases hq : st.queue with
    | nil =>
      have hL : sweepLoop (fuel + 1) st = st := by
        unfold sweepLoop
        rw [hq]
      rw [hL]
      exact ⟨hInv, hproc, fun x h => h⟩
    | cons q rest =>
      have hqm : markedAddr st.parent q :=
        hInv.qmarked q (by rw [hq]; exact List.mem_cons_self q rest)
      obtain ⟨n, hn, hgn⟩ := hqm
      have hL : sweepLoop (fuel + 1) st
          = sweepLoop fuel (traverseNode { st with queue := rest } n) := by
        conv_lhs => unfold sweepLoop
        rw [hq]
        dsimp only
        rw [hn]
      rw [hL]
      have hInv1 : SweepInv g0 R { st with queue := rest } :=
        { gen_eq := hInv.gen_eq, len_eq := hInv.len_eq, nodup := hInv.nodup,
          store := hInv.store, views := hInv.views, index_le := hInv.index_le,
          front := hInv.front,
          qmarked := fun x hx => hInv.qmarked x (by rw [hq]; exact List.mem_cons_of_mem q hx),
          qnodup := by
            have h2 := hInv.qnodup
            rw [hq] at h2
            exact h2.of_cons,
          sound := hInv.sound }
      have hv := hInv.views q
      have hvq : viewAt g0.data q = some n.view := by
        rw [← hv]
        unfold viewAt
        rw [hn]
        rfl
      obtain ⟨n0, hn0, hn0v⟩ : ∃ n0 : Node N E, findNode g0.data q = some n0 ∧
          n0.view = n.view := by
        unfold viewAt at hvq
        cases h0 : findNode g0.data q with
        | none =>
          rw [h0] at hvq
          simp at hvq
        | some m =>
          rw [h0] at hvq
          exact ⟨m, rfl, by simpa using hvq⟩
      have hedges : n0.edges = n.edges := congrArg NodeView.edges hn0v
      have hqreach : Reach g0 R q := hInv.sound q ⟨n, hn, hgn⟩
      have htrav : traverseNode { st with queue := rest } n
          = (n.edges.map Prod.fst).foldl CleanupState.touch { st with queue := rest } := by
        unfold traverseNode
        rw [List.foldl_map]
      have hreachlist : ∀ b ∈ n.edges.map Prod.fst, Reach g0 R b := by
        intro b hb
        rcases List.mem_map.1 hb with ⟨e, he, rfl⟩
        exact Reach.step hqreach hn0 ⟨e, by rw [hedges]; exact he, rfl⟩
      obtain ⟨hInv2, ⟨del, hq2, hm2⟩, hmark2⟩ :=
        foldTouch_inv (n.edges.map Prod.fst) _ hInv1 hreachlist
      rw [htrav]
      have hproc2 : processedInv
          ((n.edges.map Prod.fst).foldl CleanupState.touch { st with queue := rest }) := by
        intro x hx hxq t ht e he
        rcases (hm2 x).1 hx with hxold | hxdel
        · by_cases hxq2 : x = q
          · subst hxq2
            have hedges3 : t.edges = n0.edges :=
              view_edges_eq (hInv2.views x) ht hn0
            have he0 : e ∈ n0.edges := by rw [← hedges3]; exact he
            have hev : (findNode g0.data e.1).isSome := by
              rcases hdang n0 (findNode_mem hn0) e he0 with ⟨m, hm, hma⟩
              exact findNode_isSome.2 ⟨m, hm, hma⟩
            apply hmark2 e.1 ?_ hev
            rw [← hedges]
            exact List.mem_map.2 ⟨e, he0, rfl⟩
          · have hxst : x ∉ st.queue := by
              rw [hq]
              intro hmem
              rcases List.mem_cons.1 hmem with h1 | hr
              · exact hxq2 h1
              · apply hxq
                rw [hq2]
                exact List.mem_append_left del hr
            obtain ⟨t0, ht0, hgt0⟩ := hxold
            have hedges4 : t.edges = t0.edges :=
              view_edges_eq ((hInv2.views x).trans (hInv.views x).symm) ht ht0
            have he0 : e ∈ t0.edges := by rw [← hedges4]; exact he
            have hml : markedAddr st.parent e.1 :=
              hproc x ⟨t0, ht0, hgt0⟩ hxst t0 ht0 e he0
            exact (hm2 e.1).2 (Or.inl hml)
        · exact absurd (by rw [hq2]; exact List.mem_append_right rest hxdel) hxq
      obtain ⟨hInvF, hprocF, hmonoF⟩ := ih _ hInv2 hproc2
      refine ⟨hInvF, hprocF, ?_⟩
      intro x hx
      exact hmonoF x ((hm2 x).2 (Or.inl hx))

theorem flip_ne (c : CleanupGen) : c.flip ≠ c := by
  cases c <;> simp [CleanupGen.flip]

/-- The arena invariants a graph satisfies at rest: unique node addresses,
the slot invariant, a uniform sweep parity, no dangling edge-collection
entry, and a root collection whose pointers all dereference. -/
def ArenaInv {N E : Type} (g : GraphRaw N E) (R : List Nat) : Prop :=
  (g.data.map Node.addr).Nodup ∧
  StoreInvP g ∧
  (∀ n ∈ g.data, n.cleanup_gen = g.cleanup_gen) ∧
  (∀ n ∈ g.data, ∀ e ∈ n.edges, ∃ m ∈ g.data, m.addr = e.1) ∧
  (∀ r ∈ R, ∃ m ∈ g.data, m.addr = r)

instance {N E : Type} [DecidableEq N] [DecidableEq E] (g : GraphRaw N E) (R : List Nat) :
    Decidable (ArenaInv g R) := by
  unfold ArenaInv
  infer_instance

theorem findNode_of_viewAt_some {N E : Type} {l m : List (Node N E)} {x : Nat}
    {n : Node N E} (hv : viewAt l x = viewAt m x) (hm : findNode m x = some n) :
    ∃ n2 : Node N E, findNode l x = some n2 ∧ n2.view = n.view := by
  unfold viewAt at hv
  rw [hm] at hv
  cases hl : findNode l x with
  | none =>
    rw [hl] at hv
    simp at hv
  | some t =>
    rw [hl] at hv
    exact ⟨t, rfl, by simpa using hv⟩

theorem cleanup_char {N E : Type} (g : GraphRaw N E) (R : List Nat)
    (hInv : ArenaInv g R) :
    (∀ x : Nat, (findNode (cleanup_precise g R).data x).isSome ↔ Reach g R x) ∧
    (∀ x : Nat, Reach g R x →
      viewAt (cleanup_precise g R).data x = viewAt g.data x) ∧
    ArenaInv (cleanup_precise g R) R := by
  obtain ⟨nd0, hstore0, hgen0, hdang0, hroot0⟩ := hInv
  have hnom : ∀ x : Nat, ¬ markedAddr (GraphRaw.mk g.data g.cleanup_gen.flip) x := by
    rintro x ⟨m, hm, hgm⟩
    have h2 := hgen0 m (findNode_mem hm)
    rw [h2] at hgm
    exact flip_ne g.cleanup_gen hgm.symm
  have hInv0 : SweepInv g R (CleanupState.mk (GraphRaw.mk g.data g.cleanup_gen.flip) [] 0) :=
    { gen_eq := rfl, len_eq := rfl, nodup := nd0,
      store := storeInvP_iff.1 hstore0,
      views := fun _ => rfl,
      index_le := Nat.zero_le _,
      front := by
        intro j t hjt
        have ht := hgen0 t (mem_iff_exists_getElem?.2 ⟨j, hjt⟩)
        constructor
        · intro h
          rw [ht] at h
          exact absurd h.symm (flip_ne g.cleanup_gen)
        · intro h
          exact absurd h (Nat.not_lt_zero j),
      qmarked := fun x hx => absurd hx (List.not_mem_nil x),
      qnodup := List.nodup_nil,
      sound := fun x hx => absurd hx (hnom x) }
  have hproc0 : processedInv (CleanupState.mk (GraphRaw.mk g.data g.cleanup_gen.flip) [] 0) :=
    fun x hx => absurd hx (hnom x)
  obtain ⟨hInv1, ⟨del, hq1, hm1⟩, hmark1⟩ :=
    foldTouch_inv R _ hInv0 (fun b hb => Reach.root hb)
  set st1 : CleanupState N E := R.foldl CleanupState.touch
    (CleanupState.mk (GraphRaw.mk g.data g.cleanup_gen.flip) [] 0) with hst1
  have hq1' : st1.queue = del := by
    rw [hq1]
    rfl
  have hm1' : ∀ x, markedAddr st1.parent x ↔ x ∈ del := by
    intro x
    rw [hm1 x]
    constructor
    · rintro (h | h)
      · exact absurd h (hnom x)
      · exact h
    · exact Or.inr
  have hproc1 : processedInv st1 := by
    intro x hx hxq t ht e he
    exact absurd ((hm1' x).1 hx) (by rw [← hq1']; exact hxq)
  obtain ⟨hInvF, hprocF, hmonoF⟩ :=
    sweepLoop_inv hdang0 (2 * st1.parent.data.length + st1.queue.length) st1 hInv1 hproc1
  set stf : CleanupState N E :=
    sweepLoop (2 * st1.parent.data.length + st1.queue.length) st1 with hstf
  have hqnil : stf.queue = [] := by
    apply sweepLoop_queue_nil
    unfold sweepMeasure unmarkedCount
    have := List.countP_le_length
      (fun n : Node N E => decide (n.cleanup_gen ≠ st1.parent.cleanup_gen)) (l := st1.parent.data)
    omega
  have hcp : cleanup_precise g R
      = GraphRaw.mk (stf.parent.data.take stf.index) stf.parent.cleanup_gen := rfl
  -- marked set = reachable set
  have hReach_marked : ∀ x : Nat, Reach g R x → markedAddr stf.parent x := by
    intro x hx
    induction hx with
    | root h =>
      apply hmonoF
      apply hmark1 _ h
      rcases hroot0 _ h with ⟨m, hm, hma⟩
      exact findNode_isSome.2 ⟨m, hm, hma⟩
    | step h1 h2 h3 ih =>
      obtain ⟨t, ht, hgt⟩ := ih
      have hedges := view_edges_eq (hInvF.views _) ht h2
      rcases h3 with ⟨e, he, heb⟩
      have he2 : e ∈ t.edges := by
        rw [hedges]
        exact he
      have := hprocF _ ⟨t, ht, hgt⟩ (by rw [hqnil]; exact List.not_mem_nil _) t ht e he2
      rw [heb] at this
      exact this
  -- take-level characterizations
  have hndT : ((stf.parent.data.take stf.index).map Node.addr).Nodup := by
    rw [List.map_take]
    exact (List.take_sublist _ _).nodup hInvF.nodup
  have htake_pos : ∀ (j : Nat) (m : Node N E),
      (stf.parent.data.take stf.index)[j]? = some m ↔
        (j < stf.index ∧ stf.parent.data[j]? = some m) := by
    intro j m
    rw [List.getElem?_take]
    by_cases hj : j < stf.index
    · simp [hj]
    · simp [hj]
  have htake_find : ∀ x : Nat,
      ((findNode (stf.parent.data.take stf.index) x).isSome ↔ markedAddr stf.parent x) ∧
      (∀ m : Node N E, findNode (stf.parent.data.take stf.index) x = some m →
        findNode stf.parent.data x = some m) := by
    intro x
    constructor
    · constructor
      · intro h
        rcases Option.isSome_iff_exists.1 h with ⟨m, hm⟩
        have hmem := findNode_mem hm
        have hmaddr := findNode_some_addr hm
        rcases mem_iff_exists_getElem?.1 hmem with ⟨j, hj⟩
        obtain ⟨hjlt, hjm⟩ := (htake_pos j m).1 hj
        refine ⟨m, ?_, (hInvF.front j m hjm).2 hjlt⟩
        rw [← hmaddr]
        exact findNode_of_getElem? hInvF.nodup hjm
      · rintro ⟨m, hm, hgm⟩
        rcases mem_iff_exists_getElem?.1 (findNode_mem hm) with ⟨j, hj⟩
        have hjlt : j < stf.index := (hInvF.front j m hj).1 hgm
        have hjm : (stf.parent.data.take stf.index)[j]? = some m :=
          (htake_pos j m).2 ⟨hjlt, hj⟩
        have hmem : m ∈ stf.parent.data.take stf.index :=
          mem_iff_exists_getElem?.2 ⟨j, hjm⟩
        apply Option.isSome_iff_exists.2
        exact ⟨m, (findNode_eq_some_iff hndT).2 ⟨hmem, findNode_some_addr hm⟩⟩
    · intro m hm
      have hmem := findNode_mem hm
      have hmaddr := findNode_some_addr hm
      rcases mem_iff_exists_getElem?.1 hmem with ⟨j, hj⟩
      obtain ⟨hjlt, hjm⟩ := (htake_pos j m).1 hj
      rw [← hmaddr]
      exact findNode_of_getElem? hInvF.nodup hjm
  have htake_view : ∀ x : Nat, markedAddr stf.parent x →
      viewAt (stf.parent.data.take stf.index) x = viewAt stf.parent.data x := by
    intro x hx
    have hsome := ((htake_find x).1).2 hx
    rcases Option.isSome_iff_exists.1 hsome with ⟨m, hm⟩
    have hm2 := (htake_find x).2 m hm
    unfold viewAt
    rw [hm, hm2]
  refine ⟨?_, ?_, ?_, ?_, ?_, ?_, ?_⟩
  · intro x
    rw [hcp]
    constructor
    · intro h
      exact hInvF.sound x (((htake_find x).1).1 h)
    · intro h
      exact ((htake_find x).1).2 (hReach_marked x h)
  · intro x hx
    rw [hcp]
    have hmk := hReach_marked x hx
    calc viewAt (stf.parent.data.take stf.index) x
        = viewAt stf.parent.data x := htake_view x hmk
      _ = viewAt g.data x := hInvF.views x
  · rw [hcp]
    exact hndT
  · rw [hcp]
    apply storeInvP_iff.2
    intro j t hjt
    exact hInvF.store j t ((htake_pos j t).1 hjt).2
  · rw [hcp]
    intro n hn
    rcases mem_iff_exists_getElem?.1 hn with ⟨j, hj⟩
    obtain ⟨hjlt, hjm⟩ := (htake_pos j n).1 hj
    exact (hInvF.front j n hjm).2 hjlt
  · rw [hcp]
    intro n hn e he
    rcases mem_iff_exists_getElem?.1 hn with ⟨j, hj⟩
    obtain ⟨hjlt, hjm⟩ := (htake_pos j n).1 hj
    have hmk : markedAddr stf.parent n.addr := by
      refine ⟨n, findNode_of_getElem? hInvF.nodup hjm, (hInvF.front j n hjm).2 hjlt⟩
    have hra : Reach g R n.addr := hInvF.sound _ hmk
    -- the g-level node at n.addr has the same edges
    obtain ⟨n0, hn0, hn0v⟩ := findNode_of_viewAt_some
      ((hInvF.views n.addr).symm) (findNode_of_getElem? hInvF.nodup hjm)
    have hrb : Reach g R e.1 := by
      refine Reach.step hra hn0 ⟨e, ?_, rfl⟩
      have hedges : n0.edges = n.edges := congrArg NodeView.edges hn0v
      rw [hedges]
      exact he
    have hmb := hReach_marked _ hrb
    have hsome := ((htake_find e.1).1).2 hmb
    rcases Option.isSome_iff_exists.1 hsome with ⟨m, hm⟩
    exact ⟨m, findNode_mem hm, findNode_some_addr hm⟩
  · rw [hcp]
    intro r hr
    have hmb := hReach_marked r (Reach.root hr)
    have hsome := ((htake_find r).1).2 hmb
    rcases Option.isSome_iff_exists.1 hsome with ⟨m, hm⟩
    exact ⟨m, findNode_mem hm, findNode_some_addr hm⟩

/-- C1: for every graph satisfying the arena invariants, after
`cleanup_precise()` a node is present in the arena exactly when its address
is reachable from the root collection by following edge-collection entries;
every unreachable node is removed and every reachable node is still present
with its payload and edge collection unchanged. -/
theorem claim_C1_cleanup_reachability {N E : Type} (g : GraphRaw N E) (R : List Nat)
    (hInv : ArenaInv g R) :
    (∀ x : Nat, (findNode (cleanup_precise g R).data x).isSome ↔ Reach g R x) ∧
    (∀ x : Nat, Reach g R x →
      viewAt (cleanup_precise g R).data x = viewAt g.data x) := by
  obtain ⟨hA, hB, -⟩ := cleanup_char g R hInv
  exact ⟨hA, hB⟩

/-- Witness for C1: a three-node arena where node 3 is unreachable. -/
theorem claim_C1_cleanup_reachability_witness :
    (∀ x : Nat, (findNode (cleanup_precise (GraphRaw.mk
        [Node.mk 1 10 [(2, ())] CleanupGen.Even 0, Node.mk 2 20 [] CleanupGen.Even 1,
         Node.mk 3 30 [] CleanupGen.Even 2] CleanupGen.Even : GraphRaw Nat Unit)
        [1]).data x).isSome ↔
      Reach (GraphRaw.mk
        [Node.mk 1 10 [(2, ())] CleanupGen.Even 0, Node.mk 2 20 [] CleanupGen.Even 1,
         Node.mk 3 30 [] CleanupGen.Even 2] CleanupGen.Even : GraphRaw Nat Unit) [1] x) ∧
    (∀ x : Nat, Reach (GraphRaw.mk
        [Node.mk 1 10 [(2, ())] CleanupGen.Even 0, Node.mk 2 20 [] CleanupGen.Even 1,
         Node.mk 3 30 [] CleanupGen.Even 2] CleanupGen.Even : GraphRaw Nat Unit) [1] x →
      viewAt (cleanup_precise (GraphRaw.mk
        [Node.mk 1 10 [(2, ())] CleanupGen.Even 0, Node.mk 2 20 [] CleanupGen.Even 1,
         Node.mk 3 30 [] CleanupGen.Even 2] CleanupGen.Even : GraphRaw Nat Unit) [1]).data x
        = viewAt [Node.mk 1 10 [(2, ())] CleanupGen.Even 0, Node.mk 2 20 [] CleanupGen.Even 1,
         Node.mk 3 30 [] CleanupGen.Even 2] x) :=
  claim_C1_cleanup_reachability (GraphRaw.mk
    [Node.mk 1 10 [(2, ())] CleanupGen.Even 0, Node.mk 2 20 [] CleanupGen.Even 1,
     Node.mk 3 30 [] CleanupGen.Even 2] CleanupGen.Even : GraphRaw Nat Unit) [1] (by decide)

/-- C6: running `cleanup_precise()` twice in a row with no mutation between
is idempotent on the live set: every address carries the same
payload-and-edges view after the second run as after the first. -/
theorem claim_C6_cleanup_idempotent {N E : Type} (g : GraphRaw N E) (R : List Nat)
    (hInv : ArenaInv g R) :
    ∀ x : Nat, viewAt (cleanup_precise (cleanup_precise g R) R).data x
      = viewAt (cleanup_precise g R).data x := by
  obtain ⟨hA, hB, hC⟩ := cleanup_char g R hInv
  obtain ⟨hA2, hB2, -⟩ := cleanup_char (cleanup_precise g R) R hC
  have hlift : ∀ x : Nat, Reach g R x → Reach (cleanup_precise g R) R x := by
    intro x hx
    induction hx with
    | root h => exact Reach.root h
    | step h1 h2 h3 ih =>
      obtain ⟨n2, hn2, hv2⟩ := findNode_of_viewAt_some (hB _ h1) h2
      rcases h3 with ⟨e, he, heb⟩
      refine Reach.step ih hn2 ⟨e, ?_, heb⟩
      have hedges : n2.edges = _ := congrArg NodeView.edges hv2
      rw [hedges]
      exact he
  have hdrop : ∀ x : Nat, Reach (cleanup_precise g R) R x → Reach g R x := by
    intro x hx
    induction hx with
    | root h => exact Reach.root h
    | step h1 h2 h3 ih =>
      obtain ⟨n2, hn2, hv2⟩ := findNode_of_viewAt_some (hB _ ih).symm h2
      rcases h3 with ⟨e, he, heb⟩
      refine Reach.step ih hn2 ⟨e, ?_, heb⟩
      have hedges : n2.edges = _ := congrArg NodeView.edges hv2
      rw [hedges]
      exact he
  intro x
  by_cases hx : Reach g R x
  · exact hB2 x (hlift x hx)
  · have hg1 : findNode (cleanup_precise g R).data x = none := by
      cases hh : findNode (cleanup_precise g R).data x with
      | none => rfl
      | some m => exact absurd ((hA x).1 (by rw [hh]; rfl)) hx
    have hg2 : findNode (cleanup_precise (cleanup_precise g R) R).data x = none := by
      cases hh : findNode (cleanup_precise (cleanup_precise g R) R).data x with
      | none => rfl
      | some m =>
        have hr2 : Reach (cleanup_precise g R) R x := (hA2 x).1 (by rw [hh]; rfl)
        exact absurd (hdrop x hr2) hx
    unfold viewAt
    rw [hg1, hg2]

/-- Witness for C6 at the same concrete three-node arena, at address 3. -/
theorem claim_C6_cleanup_idempotent_witness :
    viewAt (cleanup_precise (cleanup_precise (GraphRaw.mk
        [Node.mk 1 10 [(2, ())] CleanupGen.Even 0, Node.mk 2 20 [] CleanupGen.Even 1,
         Node.mk 3 30 [] CleanupGen.Even 2] CleanupGen.Even : GraphRaw Nat Unit) [1]) [1]).data 3
      = viewAt (cleanup_precise (GraphRaw.mk
        [Node.mk 1 10 [(2, ())] CleanupGen.Even 0, Node.mk 2 20 [] CleanupGen.Even 1,
         Node.mk 3 30 [] CleanupGen.Even 2] CleanupGen.Even : GraphRaw Nat Unit) [1]).data 3 :=
  claim_C6_cleanup_idempotent (GraphRaw.mk
    [Node.mk 1 10 [(2, ())] CleanupGen.Even 0, Node.mk 2 20 [] CleanupGen.Even 1,
     Node.mk 3 30 [] CleanupGen.Even 2] CleanupGen.Even : GraphRaw Nat Unit) [1] (by decide) 3

/-- C7: the sweep loop of `cleanup_precise` terminates: with the fuel the
function supplies, the FIFO queue is fully drained (each node is marked and
enqueued at most once per sweep, so twice the number of unvisited nodes plus
the queue length bounds the iterations). -/
theorem claim_C7_sweep_terminates {N E : Type} (g : GraphRaw N E) (R : List Nat) :
    ((sweepLoop
        (2 * (R.foldl CleanupState.touch
          (CleanupState.mk (GraphRaw.mk g.data g.cleanup_gen.flip) [] 0)).parent.data.length
          + (R.foldl CleanupState.touch
          (CleanupState.mk (GraphRaw.mk g.data g.cleanup_gen.flip) [] 0)).queue.length)
        (R.foldl CleanupState.touch
          (CleanupState.mk (GraphRaw.mk g.data g.cleanup_gen.flip) [] 0))).queue = []) ∧
    ∀ (fuel : Nat) (st : CleanupState N E),
      2 * unmarkedCount st.parent + st.queue.length ≤ fuel →
      (sweepLoop fuel st).queue = [] := by
  constructor
  · apply sweepLoop_queue_nil
    unfold sweepMeasure unmarkedCount
    have := List.countP_le_length
      (fun n : Node N E => decide (n.cleanup_gen ≠ (R.foldl CleanupState.touch
        (CleanupState.mk (GraphRaw.mk g.data g.cleanup_gen.flip) [] 0)).parent.cleanup_gen))
      (l := (R.foldl CleanupState.touch
        (CleanupState.mk (GraphRaw.mk g.data g.cleanup_gen.flip) [] 0)).parent.data)
    omega
  · intro fuel st h
    exact sweepLoop_queue_nil fuel st h

/-- Witness for C7 at a concrete one-node state with explicit fuel. -/
theorem claim_C7_sweep_terminates_witness :
    2 * unmarkedCount (CleanupState.mk
        (GraphRaw.mk [Node.mk 1 0 [(1, 0)] CleanupGen.Odd 0] CleanupGen.Even : GraphRaw Nat Nat)
        [] 0).parent + (CleanupState.mk
        (GraphRaw.mk [Node.mk 1 0 [(1, 0)] CleanupGen.Odd 0] CleanupGen.Even : GraphRaw Nat Nat)
        [] 0).queue.length ≤ 3 ∧
    (sweepLoop 3 (CleanupState.mk
        (GraphRaw.mk [Node.mk 1 0 [(1, 0)] CleanupGen.Odd 0] CleanupGen.Even : GraphRaw Nat Nat)
        [] 0)).queue = [] :=
  ⟨by decide, (claim_C7_sweep_terminates (GraphRaw.mk
      [Node.mk 1 0 [(1, 0)] CleanupGen.Odd 0] CleanupGen.Even : GraphRaw Nat Nat) []).2 3
    (CleanupState.mk
      (GraphRaw.mk [Node.mk 1 0 [(1, 0)] CleanupGen.Odd 0] CleanupGen.Even : GraphRaw Nat Nat)
      [] 0) (by decide)⟩
